import Mathlib

/-!
MiniBuilder.js: tokenizer, parser and evaluator of the template DSL.

A shallow embedding of `src/MiniBuilder.js` (classes `Scanner`, `Parser`,
`Evaluator`, and the pipeline of `Builder.add`).

Modelling conventions.

* A JavaScript string is a list of characters (`Str`).  The regular
  expressions of the source only use literal characters, negated one-character
  classes and `\s`, so working on code points instead of UTF-16 code units does
  not change any result on well-formed strings.
* A JavaScript value that is either a string or `undefined` is an
  `Option Str` (`Val`), `none` standing for `undefined`.
* An uncaught JavaScript exception is `Except.error Exn.typeError`.  Loops
  are bounded by a fuel argument; running out of it is the separate outcome
  `Exn.outOfFuel`, which the lemmas below show is never observed with
  the fuel the entry points supply.
-/

namespace MiniBuilder

/-- JavaScript string, as the list of its characters. -/
abbrev Str := List Char

/-- String-or-undefined JavaScript value; `none` is `undefined`. -/
abbrev Val := Option Str

/-- Outcomes other than a normal return. -/
inductive Exn where
  /-- an uncaught `TypeError` (property read on `undefined`) -/
  | typeError
  /-- the bound of the model was exhausted (not a behaviour of the program) -/
  | outOfFuel
  deriving DecidableEq, Repr

/-! ## Regular expressions -/

/-- Character class `\s` of JavaScript regular expressions. -/
def isSpace (c : Char) : Bool :=
  let n := c.toNat
  n = 0x09 || n = 0x0A || n = 0x0B || n = 0x0C || n = 0x0D || n = 0x20 ||
  n = 0xA0 || n = 0x1680 || (0x2000 ≤ n && n ≤ 0x200A) || n = 0x2028 ||
  n = 0x2029 || n = 0x202F || n = 0x205F || n = 0x3000 || n = 0xFEFF

/-- Pieces the four regular expressions of the source are made of. -/
inductive Piece where
  /-- a literal character -/
  | lit (c : Char)
  /-- `cls+`, greedy, not captured -/
  | plus (cls : Char → Bool)
  /-- `(cls+)`, greedy, capture group 1 -/
  | capPlus (cls : Char → Bool)

/-- Greedy repetition with backtracking: try to consume `k` characters, then
`k - 1`, ... down to one, and continue with `rest` on what remains; the first
success wins. -/
def greedy (rest : Str → Option (Nat × Str)) (s : Str) : Nat → Option (Nat × Nat × Str)
  | 0 => none
  | k + 1 =>
    match rest (s.drop (k + 1)) with
    | some r => some (k + 1, r)
    | none => greedy rest s k

/-- Backtracking match of a pattern at the start of `s`: the length of the
match and the text of capture group 1 (empty when the pattern has no group). -/
def matchHere : List Piece → Str → Option (Nat × Str)
  | [], _ => some (0, [])
  | Piece.lit _ :: _, [] => none
  | Piece.lit c :: ps, x :: xs =>
    if x = c then
      match matchHere ps xs with
      | some (n, cap) => some (n + 1, cap)
      | none => none
    else none
  | Piece.plus cls :: ps, s =>
    match greedy (matchHere ps) s (s.takeWhile cls).length with
    | some (k, n, cap) => some (k + n, cap)
    | none => none
  | Piece.capPlus cls :: ps, s =>
    match greedy (matchHere ps) s (s.takeWhile cls).length with
    | some (k, n, _) => some (k + n, s.take k)
    | none => none

/-- Result of `RegExp.prototype.exec`: `m.index`, `m[0].length`, `m[1]`. -/
structure Match where
  index : Nat
  length : Nat
  group1 : Str
  deriving DecidableEq, Repr

/-- Leftmost match of the pattern in `s`, whose first character has index `idx`. -/
def search (p : List Piece) : Str → Nat → Option Match
  | [], idx =>
    match matchHere p [] with
    | some (n, cap) => some ⟨idx, n, cap⟩
    | none => none
  | x :: xs, idx =>
    match matchHere p (x :: xs) with
    | some (n, cap) => some ⟨idx, n, cap⟩
    | none => search p xs (idx + 1)

/-- The function `re.exec(txt)` started at `lastIndex`. -/
def exec (p : List Piece) (txt : Str) (lastIndex : Nat) : Option Match :=
  search p (txt.drop lastIndex) lastIndex

/-- Literal characters of a pattern. -/
def lits (s : Str) : List Piece := s.map Piece.lit

/-- Opening brace. -/
def lbrace : Char := Char.ofNat 0x7B

/-- Closing brace. -/
def rbrace : Char := Char.ofNat 0x7D

/-- Two opening braces. -/
def openB : Str := [lbrace, lbrace]

/-- Two closing braces. -/
def closeB : Str := [rbrace, rbrace]

namespace Scanner

/-- Marker detection: `/{{([^{]+)}}/g`. -/
def re : List Piece :=
  lits openB ++ [Piece.capPlus (fun c => c != lbrace)] ++ lits closeB

/-- Pattern `/{{if\s+([^}]+)}}/`. -/
def ifRe : List Piece :=
  lits (openB ++ ['i', 'f']) ++ [Piece.plus isSpace, Piece.capPlus (fun c => c != rbrace)] ++
    lits closeB

/-- Pattern `/{{endif}}/`. -/
def endifRe : List Piece :=
  lits (openB ++ ['e', 'n', 'd', 'i', 'f'] ++ closeB)

/-- Pattern `/{{([^}\s]+)}}/`. -/
def varRe : List Piece :=
  lits openB ++ [Piece.capPlus (fun c => c != rbrace && !isSpace c)] ++ lits closeB

end Scanner

/-- Token objects: `{source: t}`, `{if: c}`, `{endif: 'endif'}`, `{var: n}`. -/
inductive Token where
  | source (t : Str)
  | ifTok (cond : Str)
  | endif
  | var (name : Str)
  deriving DecidableEq, Repr

/-- The method `txt.substr(start, len)`. -/
def substr (txt : Str) (start len : Nat) : Str := (txt.drop start).take len

namespace Scanner

/-- The classification pass of `Scanner.parameterize` on one raw token;
`none` is the `undefined` the callback returns after `console.error`. -/
def parameterize1 (t : Str) : Option Token :=
  if !(openB.isPrefixOf t) then some (Token.source t)
  else
    match exec ifRe t 0 with
    | some m => some (Token.ifTok m.group1)
    | none =>
      match exec endifRe t 0 with
      | some _ => some Token.endif
      | none =>
        match exec varRe t 0 with
        | some m => some (Token.var m.group1)
        | none => none

/-- The function `Scanner.parameterize`. -/
def parameterize (incompleteTokens : List Str) : List (Option Token) :=
  incompleteTokens.map parameterize1

/-- The `do ... while (true)` loop of `Scanner.tokenize`; `lastCut` is also the
`lastIndex` of the global regular expression.  The result is `tokens` after
the final "push rest". -/
def tokenizeLoop (txt : Str) : Nat → Nat → List Str → Except Exn (List Str)
  | 0, _, _ => .error .outOfFuel
  | fuel + 1, lastCut, tokens =>
    match exec re txt lastCut with
    | some m =>
      tokenizeLoop txt fuel (m.index + m.length)
        (tokens ++ [substr txt lastCut (m.index - lastCut), substr txt m.index m.length])
    | none => .ok (tokens ++ [substr txt lastCut (txt.length - lastCut)])

/-- The function `Scanner.tokenize`. -/
def tokenize (txt : Str) : Except Exn (List (Option Token)) :=
  match tokenizeLoop txt (txt.length + 1) 0 [] with
  | .ok tokens => .ok (parameterize (tokens.filter (fun t => t.length != 0)))
  | .error e => .error e

end Scanner

/-! ## Parser -/

/-- AST nodes.  A leaf statement is the token object itself
(`statements.push(this.next())`); `lines` is `{lines: {statements}}` and
`ifNode` is `{if: {cond, lines}}`. -/
inductive Node where
  | tok (t : Token)
  | lines (statements : List Node)
  | ifNode (cond : Val) (lines : Node)

/-- Property read `t.if` on a token object. -/
def Token.ifField : Token → Val
  | Token.ifTok c => some c
  | _ => none

namespace Parser

/-- The test `t.source != undefined` of `seeSource`, on the current token. -/
def seeSource : Token → Bool
  | Token.source _ => true
  | _ => false

/-- The test `t.var != undefined` of `seeVariable`, on the current token. -/
def seeVariable : Token → Bool
  | Token.var _ => true
  | _ => false

/-- The test `t.if != undefined` of `seeIf`, on the current token. -/
def seeIf : Token → Bool
  | Token.ifTok _ => true
  | _ => false

/-- The test `t.endif != undefined` of `seeEndif`, on the current token. -/
def seeEndif : Token → Bool
  | Token.endif => true
  | _ => false

/-- The method `next`: the token under the cursor (`undefined` past the end,
after the `console.error`) and the advanced cursor. -/
def next (tokens : List (Option Token)) (i : Nat) : Option Token × Nat :=
  (tokens.getD i none, i + 1)

/-- The method `parseIf`, with the recursive `parseLines` passed as argument.
Reading `.if` of an `undefined` token is a `TypeError`. -/
def parseIf (parseLines : Nat → Except Exn (Node × Nat)) (tokens : List (Option Token))
    (i : Nat) : Except Exn (Node × Nat) :=
  match next tokens i with
  | (none, _) => .error .typeError
  | (some t, i1) =>
    match parseLines i1 with
    | .error e => .error e
    | .ok (lines, i2) => .ok (Node.ifNode t.ifField lines, (next tokens i2).2)

/-- The `while` loop of `parseLines`, from cursor `i` with the statements
collected so far; returns the statements and the final cursor.  The guards
`seeSource()`, ... read a property of `this.tokens[this.i]`, which is a
`TypeError` when that slot holds `undefined`. -/
def parseLinesLoop (tokens : List (Option Token)) :
    Nat → Nat → List Node → Except Exn (List Node × Nat)
  | 0, _, _ => .error .outOfFuel
  | fuel + 1, i, statements =>
    if i < tokens.length then
      match tokens.getD i none with
      | none => .error .typeError
      | some t =>
        if seeSource t || seeVariable t then
          -- `statements.push(this.next())`: the token under the cursor is the statement
          parseLinesLoop tokens fuel (next tokens i).2 (statements ++ [Node.tok t])
        else if seeIf t then
          -- `statements.push(this.parseIf())`
          match parseIf
              (fun j =>
                match parseLinesLoop tokens fuel j [] with
                | .ok (ss, k) => .ok (Node.lines ss, k)
                | .error e => .error e)
              tokens i with
          | .error e => .error e
          | .ok (node, i1) => parseLinesLoop tokens fuel i1 (statements ++ [node])
        else .ok (statements, i)
    else .ok (statements, i)

/-- The method `parseLines`: the block and the cursor after it. -/
def parseLines (tokens : List (Option Token)) (fuel i : Nat) : Except Exn (Node × Nat) :=
  match parseLinesLoop tokens fuel i [] with
  | .ok (ss, k) => .ok (Node.lines ss, k)
  | .error e => .error e

/-- The method `buildAST` together with the cursor it leaves behind. -/
def buildASTCursor (tokens : List (Option Token)) : Except Exn (Node × Nat) :=
  parseLines tokens (tokens.length + 1) 0

/-- The method `buildAST`. -/
def buildAST (tokens : List (Option Token)) : Except Exn Node :=
  match buildASTCursor tokens with
  | .ok (ast, _) => .ok ast
  | .error e => .error e

end Parser

/-! ## Evaluator -/

/-- JavaScript object used as a property bag: its enumerable properties in
enumeration order. -/
abbrev Obj := List (Str × Val)

/-- The `Map` of the evaluator: entries in insertion order, keys distinct. -/
abbrev JsMap := List (Str × Val)

namespace JsMap

/-- The method `Map.prototype.set`. -/
def set : JsMap → Str → Val → JsMap
  | [], k, v => [(k, v)]
  | (k', v') :: m, k, v => if k' = k then (k, v) :: m else (k', v') :: set m k v

/-- The method `Map.prototype.has`. -/
def has : JsMap → Str → Bool
  | [], _ => false
  | (k', _) :: m, k => if k' = k then true else has m k

/-- The method `Map.prototype.get` (`undefined` for an absent key). -/
def get : JsMap → Str → Val
  | [], _ => none
  | (k', v') :: m, k => if k' = k then v' else get m k

end JsMap

/-- The test `key in obj` on a property bag. -/
def Obj.hasKey (o : Obj) (k : Str) : Bool := o.any (fun e => e.1 = k)

/-- Property read `obj[key]`: the last definition of the key wins. -/
def Obj.read : Obj → Str → Val
  | [], _ => none
  | (k', v') :: o, k => if Obj.hasKey o k then Obj.read o k else if k' = k then v' else none

/-- String coercion of `s += value`. -/
def toStr : Val → Str
  | some s => s
  | none => "undefined".toList

namespace Evaluator

/-- The constructor: all local variables, then all global variables, are
`set` into a fresh `Map`. -/
def mkVariables (localVariables globalVariables : Obj) : JsMap :=
  globalVariables.foldl (fun m e => JsMap.set m e.1 e.2)
    (localVariables.foldl (fun m e => JsMap.set m e.1 e.2) [])

/-- The method `getVariable` (the warning is not modelled). -/
def getVariable (vars : JsMap) (name : Str) : Val := JsMap.get vars name

/-- The method `evaluateCondition`, `this.variables.has(cond)`.  The keys of
the map are the strings a `for ... in` loop enumerates, so `undefined` is
never one of them. -/
def evaluateCondition (vars : JsMap) : Val → Bool
  | some cond => JsMap.has vars cond
  | none => false

mutual
/-- The method `evaluate` on a node.  The tests are truthiness tests: a
non-empty string or an object passes. -/
def evaluate (vars : JsMap) : Node → Val
  | Node.tok (Token.source s) =>
    if s ≠ [] then some s else none
  | Node.tok (Token.var name) =>
    if name ≠ [] then getVariable vars name else none
  | Node.lines statements => some (evaluateStatements vars statements [])
  | Node.ifNode cond lines =>
    if evaluateCondition vars cond then evaluate vars lines else some []
  | Node.tok (Token.ifTok c) =>
    -- `node.if` is the string `c`, whose property `cond` is `undefined`
    if c ≠ [] then some [] else none
  | Node.tok Token.endif => none
/-- The `for` loop of the `lines` branch, with the accumulator `s`. -/
def evaluateStatements (vars : JsMap) : List Node → Str → Str
  | [], s => s
  | n :: rest, s => evaluateStatements vars rest (s ++ toStr (evaluate vars n))
end

end Evaluator

/-- The pipeline of `Builder.add`: tokenize, build the AST, evaluate. -/
def render (text : Str) (localVariables globalVariables : Obj) : Except Exn Val :=
  match Scanner.tokenize text with
  | .error e => .error e
  | .ok tokens =>
    match Parser.buildAST tokens with
    | .error e => .error e
    | .ok ast => .ok (Evaluator.evaluate (Evaluator.mkVariables localVariables globalVariables) ast)


/-! ## Auxiliary predicates -/

/-- Pattern that can only match an input starting with `{{`. -/
def NeedsOpen (p : List Piece) : Prop :=
  ∀ s : Str, openB.isPrefixOf s = false → matchHere p s = none

/-- Text that contains neither brace character. -/
@[reducible] def NoBraces (s : Str) : Prop := lbrace ∉ s ∧ rbrace ∉ s

/-- Text without a whitespace character (class `\s`). -/
@[reducible] def NoSpace (s : Str) : Prop := ∀ c ∈ s, isSpace c = false

/-- Condition name: non-empty, no whitespace, no brace. -/
@[reducible] def ValidCond (c : Str) : Prop := c ≠ [] ∧ NoSpace c ∧ NoBraces c

/-- Variable name: non-empty, no whitespace, no brace, and not `endif`. -/
@[reducible] def ValidName (n : Str) : Prop := ValidCond n ∧ n ≠ "endif".toList

/-- Text that contains a marker: `{{`, one or more characters other than `{`,
then `}}` (the marker-detection rule of the tokenizer). -/
def HasMarker (s : Str) : Prop :=
  ∃ a b c : Str, s = a ++ openB ++ b ++ closeB ++ c ∧ b ≠ [] ∧ lbrace ∉ b

/-! ## Trees and token lists of the grammar -/

mutual
/-- Tokens of a tree, in source order: a leaf is its own token, a block is
the concatenation of its statements, and a conditional is its `if` token, its
body and an `endif` token.  (A conditional whose condition is `undefined` is
not a tree of the grammar, see `isStatement`; it has no `if` token to give.) -/
def flatten : Node → List Token
  | Node.tok t => [t]
  | Node.lines statements => flattenList statements
  | Node.ifNode (some c) body => Token.ifTok c :: (flatten body ++ [Token.endif])
  | Node.ifNode none body => flatten body ++ [Token.endif]
/-- Tokens of a list of statements. -/
def flattenList : List Node → List Token
  | [] => []
  | n :: rest => flatten n ++ flattenList rest
end

mutual
/-- Trees of the grammar `lines -> statement lines`: a block of statements. -/
def isBlock : Node → Bool
  | Node.lines statements => allStatements statements
  | _ => false
/-- Statements of the grammar: a text leaf, a variable leaf, or a conditional
with a condition string and a block as body. -/
def isStatement : Node → Bool
  | Node.tok (Token.source _) => true
  | Node.tok (Token.var _) => true
  | Node.ifNode (some _) body => isBlock body
  | _ => false
/-- Lists of statements of the grammar. -/
def allStatements : List Node → Bool
  | [] => true
  | n :: rest => isStatement n && allStatements rest
end

/-- Scan of a token list with a nesting depth: every `endif` closes an open
`if` (the depth never drops below zero) and the depth is zero at the end. -/
def balancedFrom : Nat → List Token → Bool
  | d, [] => d == 0
  | d, Token.ifTok _ :: ts => balancedFrom (d + 1) ts
  | 0, Token.endif :: _ => false
  | d + 1, Token.endif :: ts => balancedFrom d ts
  | d, _ :: ts => balancedFrom d ts

/-- Balanced token list: every `if` is closed by an `endif` of the list at
the same depth, and no `endif` is unmatched. -/
def Balanced (ts : List Token) : Prop := balancedFrom 0 ts = true

/-! ## The evaluator with its diagnostics -/

mutual
/-- The method `evaluate` together with a flag that records whether the final
branch (`console.error('Evaluator Error.')`) was reached, on the node itself
or on a sub-node that is evaluated. -/
def evaluateTraced (vars : JsMap) : Node → Val × Bool
  | Node.tok (Token.source s) =>
    if s ≠ [] then (some s, false) else (none, true)
  | Node.tok (Token.var name) =>
    if name ≠ [] then (Evaluator.getVariable vars name, false) else (none, true)
  | Node.lines statements =>
    ((some (evaluateStatementsTraced vars statements ([], false)).1),
      (evaluateStatementsTraced vars statements ([], false)).2)
  | Node.ifNode cond lines =>
    if Evaluator.evaluateCondition vars cond then evaluateTraced vars lines else (some [], false)
  | Node.tok (Token.ifTok c) =>
    if c ≠ [] then (some [], false) else (none, true)
  | Node.tok Token.endif => (none, true)
/-- The `for` loop of the `lines` branch, with the accumulator `s` and the
flag. -/
def evaluateStatementsTraced (vars : JsMap) : List Node → Str × Bool → Str × Bool
  | [], s => s
  | n :: rest, s =>
    evaluateStatementsTraced vars rest
      (s.1 ++ toStr (evaluateTraced vars n).1, s.2 || (evaluateTraced vars n).2)
end

/-- Token whose text or name, if it has one, is a non-empty string. -/
def cleanToken : Token → Bool
  | Token.source s => s.length != 0
  | Token.var name => name.length != 0
  | _ => true

/-! ## The wire format of the template language -/

/-- Text of a token in a template: a text token is its content, a variable is
`{{name}}`, an opening marker is `{{if cond}}` and a closing marker is
`{{endif}}`. -/
def unparse1 : Token → Str
  | Token.source s => s
  | Token.var n => openB ++ (n ++ closeB)
  | Token.ifTok c => openB ++ (['i', 'f', ' '] ++ (c ++ closeB))
  | Token.endif => openB ++ (['e', 'n', 'd', 'i', 'f'] ++ closeB)

/-- Template text of a token list. -/
def unparse : List Token → Str
  | [] => []
  | t :: ts => unparse1 t ++ unparse ts

/-- Text tokens. -/
def isText : Token → Bool
  | Token.source _ => true
  | _ => false

/-- Token in normal form: a text is non-empty and has no brace; a variable
name is non-empty, has no whitespace and no brace and is not `endif`; a
condition is non-empty, has no brace and does not start with whitespace. -/
def NormalToken : Token → Prop
  | Token.source s => s ≠ [] ∧ NoBraces s
  | Token.var n => ValidName n
  | Token.ifTok c => c ≠ [] ∧ NoBraces c ∧ ∀ x, c.head? = some x → isSpace x = false
  | Token.endif => True

/-- Token list in normal form: every token is in normal form and no two text
tokens are adjacent. -/
def Normal (ts : List Token) : Prop :=
  (∀ t ∈ ts, NormalToken t) ∧
    List.Chain' (fun a b => ¬ (isText a = true ∧ isText b = true)) ts

/-! # Lemmas -/

/-! ## Lemmas on the regular-expression matcher -/

theorem greedy_none (rest : Str → Option (Nat × Str)) (s : Str) (K : Nat)
    (h : ∀ j, 1 ≤ j → j ≤ K → rest (s.drop j) = none) : greedy rest s K = none := by
  induction K with
  | zero => rfl
  | succ K ih =>
    rw [greedy, h (K + 1) (by omega) (by omega)]
    exact ih (fun j h1 h2 => h j h1 (by omega))

theorem greedy_some (rest : Str → Option (Nat × Str)) (s : Str) (K k : Nat) (r : Nat × Str)
    (h1 : 1 ≤ k) (h2 : k ≤ K) (hk : rest (s.drop k) = some r)
    (h : ∀ j, k < j → j ≤ K → rest (s.drop j) = none) : greedy rest s K = some (k, r) := by
  induction K with
  | zero => omega
  | succ K ih =>
    rw [greedy]
    by_cases hK : k = K + 1
    · subst hK
      rw [hk]
    · rw [h (K + 1) (by omega) (by omega)]
      exact ih (by omega) (fun j h1 h2 => h j h1 (by omega))

theorem greedy_sound (rest : Str → Option (Nat × Str)) (s : Str) (K k : Nat) (r : Nat × Str)
    (h : greedy rest s K = some (k, r)) :
    1 ≤ k ∧ k ≤ K ∧ rest (s.drop k) = some r ∧ ∀ j, k < j → j ≤ K → rest (s.drop j) = none := by
  induction K with
  | zero => simp [greedy] at h
  | succ K ih =>
    rw [greedy] at h
    cases hr : rest (s.drop (K + 1)) with
    | some r' =>
      rw [hr] at h
      simp only [Option.some.injEq, Prod.mk.injEq] at h
      obtain ⟨h1, h2⟩ := h
      subst h1
      subst h2
      exact ⟨by omega, by omega, hr, fun j h1 h2 => by omega⟩
    | none =>
      rw [hr] at h
      obtain ⟨a, b, c, d⟩ := ih h
      refine ⟨a, by omega, c, fun j h1 h2 => ?_⟩
      by_cases hj : j = K + 1
      · subst hj
        exact hr
      · exact d j h1 (by omega)

theorem matchHere_lits_append (w : Str) (ps : List Piece) (s : Str) :
    matchHere (lits w ++ ps) (w ++ s) =
      match matchHere ps s with
      | some (n, cap) => some (n + w.length, cap)
      | none => none := by
  induction w with
  | nil =>
    simp only [lits, List.map_nil, List.nil_append, List.length_nil, Nat.add_zero]
    cases matchHere ps s with
    | none => rfl
    | some r => rfl
  | cons c w ih =>
    simp only [lits, List.map_cons, List.cons_append, matchHere, if_true, List.append_eq] at ih ⊢
    rw [ih]
    cases matchHere ps s with
    | none => rfl
    | some r => simp [Nat.add_assoc]

theorem matchHere_lits_sound (w : Str) (ps : List Piece) (s : Str) (r : Nat × Str)
    (h : matchHere (lits w ++ ps) s = some r) :
    ∃ s', s = w ++ s' := by
  induction w generalizing s r with
  | nil => exact ⟨s, rfl⟩
  | cons c w ih =>
    cases s with
    | nil => simp [lits, matchHere] at h
    | cons x xs =>
      simp only [lits, List.map_cons, List.cons_append, matchHere, List.append_eq] at h
      by_cases hx : x = c
      · subst hx
        simp only [if_true] at h
        cases hm : matchHere (List.map Piece.lit w ++ ps) xs with
        | none => rw [hm] at h; simp at h
        | some r' =>
          obtain ⟨s', hs'⟩ := ih xs r' hm
          exact ⟨s', by rw [hs']; rfl⟩
      · simp [hx] at h

theorem matchHere_lit_head (c : Char) (ps : List Piece) (s : Str)
    (h : s.head? ≠ some c) : matchHere (Piece.lit c :: ps) s = none := by
  cases s with
  | nil => rfl
  | cons x xs =>
    have hx : x ≠ c := fun e => h (by simp [e])
    simp [matchHere, hx]

/-- A match never extends past the end of the input. -/
theorem matchHere_le (p : List Piece) (s : Str) (n : Nat) (cap : Str)
    (h : matchHere p s = some (n, cap)) : n ≤ s.length := by
  induction p generalizing s n cap with
  | nil =>
    simp [matchHere] at h
    omega
  | cons pc ps ih =>
    cases pc with
    | lit c =>
      cases s with
      | nil => simp [matchHere] at h
      | cons x xs =>
        simp only [matchHere] at h
        by_cases hx : x = c
        · simp only [hx, if_true] at h
          cases hm : matchHere ps xs with
          | none => rw [hm] at h; simp at h
          | some r =>
            obtain ⟨n', cap'⟩ := r
            rw [hm] at h
            simp only [Option.some.injEq, Prod.mk.injEq] at h
            have := ih xs n' cap' hm
            simp only [List.length_cons]
            omega
        · simp [hx] at h
    | plus cls =>
      simp only [matchHere] at h
      cases hg : greedy (matchHere ps) s (s.takeWhile cls).length with
      | none => rw [hg] at h; simp at h
      | some r =>
        obtain ⟨k, n', cap'⟩ := r
        rw [hg] at h
        simp only [Option.some.injEq, Prod.mk.injEq] at h
        obtain ⟨h1, h2, h3, _⟩ := greedy_sound _ _ _ _ _ hg
        have := ih _ n' cap' h3
        have hl := (List.takeWhile_sublist (l := s) cls).length_le
        simp only [List.length_drop] at this
        omega
    | capPlus cls =>
      simp only [matchHere] at h
      cases hg : greedy (matchHere ps) s (s.takeWhile cls).length with
      | none => rw [hg] at h; simp at h
      | some r =>
        obtain ⟨k, n', cap'⟩ := r
        rw [hg] at h
        simp only [Option.some.injEq, Prod.mk.injEq] at h
        obtain ⟨h1, h2, h3, _⟩ := greedy_sound _ _ _ _ _ hg
        have := ih _ n' cap' h3
        have hl := (List.takeWhile_sublist (l := s) cls).length_le
        simp only [List.length_drop] at this
        omega


theorem lbrace_ne_rbrace : lbrace ≠ rbrace := by decide

theorem isSpace_lbrace : isSpace lbrace = false := by decide

theorem isSpace_rbrace : isSpace rbrace = false := by decide

theorem matchHere_plus (cls : Char → Bool) (ps : List Piece) (s : Str) :
    matchHere (Piece.plus cls :: ps) s =
      match greedy (matchHere ps) s (s.takeWhile cls).length with
      | some (k, n, cap) => some (k + n, cap)
      | none => none := by
  rw [matchHere]

theorem matchHere_capPlus (cls : Char → Bool) (ps : List Piece) (s : Str) :
    matchHere (Piece.capPlus cls :: ps) s =
      match greedy (matchHere ps) s (s.takeWhile cls).length with
      | some (k, n, _) => some (k + n, s.take k)
      | none => none := by
  rw [matchHere]

theorem matchHere_closeB_none (s : Str) (h : s.head? ≠ some rbrace) :
    matchHere (lits closeB) s = none :=
  matchHere_lit_head rbrace _ s h

theorem matchHere_closeB_none2 (s : Str) (h : s.head? ≠ some rbrace) :
    matchHere (lits closeB) (rbrace :: s) = none := by
  have := matchHere_lit_head rbrace [] s h
  simp [lits, closeB, matchHere, this]

theorem matchHere_closeB_append (s : Str) :
    matchHere (lits closeB) (closeB ++ s) = some (2, []) := by
  have := matchHere_lits_append closeB [] s
  simp only [List.append_nil] at this
  rw [this]
  rfl

/-- Inside and right after the longest prefix of `w` accepted by `p`, no
position holds a character `x` that `p` accepts and that prefix lacks. -/
theorem head_drop_takeWhile (p : Char → Bool) (x : Char) (hx : p x = true) (w : Str)
    (hw : x ∉ w.takeWhile p) (o : Nat) (ho : o ≤ (w.takeWhile p).length) :
    (w.drop o).head? ≠ some x := by
  induction w generalizing o with
  | nil => simp
  | cons c w ih =>
    by_cases hc : p c = true
    · rw [List.takeWhile_cons_of_pos hc] at hw ho
      cases o with
      | zero =>
        simp only [List.drop_zero, List.head?_cons, ne_eq, Option.some.injEq]
        intro e
        exact hw (by simp [e])
      | succ o =>
        simp only [List.drop_succ_cons]
        exact ih (fun hm => hw (List.mem_cons_of_mem _ hm))
          o (by simpa using ho)
    · rw [List.takeWhile_cons_of_neg hc] at ho
      have ho0 : o = 0 := by simpa using ho
      subst ho0
      simp only [List.drop_zero, List.head?_cons, ne_eq, Option.some.injEq]
      intro e
      exact hc (e ▸ hx)

/-- Greedy class followed by `}}`: on `body ++ "}}" ++ w`, where the class
accepts all of `body` and `}`, and `w` has no `}` before its first rejected
character, the repetition stops exactly at the end of `body`. -/
theorem greedy_closeB (cls : Char → Bool) (body w : Str) (hb : body ≠ [])
    (hcls : ∀ c ∈ body, cls c = true) (hr : cls rbrace = true)
    (hw : rbrace ∉ w.takeWhile cls) :
    greedy (matchHere (lits closeB)) (body ++ closeB ++ w)
      ((body ++ closeB ++ w).takeWhile cls).length = some (body.length, 2, []) := by
  have hrun : (body ++ closeB ++ w).takeWhile cls = body ++ closeB ++ w.takeWhile cls := by
    rw [List.append_assoc, List.takeWhile_append_of_pos hcls,
      List.takeWhile_append_of_pos (by simp [closeB, hr]), List.append_assoc]
  rw [hrun]
  apply greedy_some
  · cases body with
    | nil => exact absurd rfl hb
    | cons c b => simp
  · simp
  · rw [List.append_assoc, List.drop_left]
    exact matchHere_closeB_append w
  · intro j h1 h2
    obtain ⟨o, rfl⟩ : ∃ o, j = body.length + (o + 1) := ⟨j - body.length - 1, by omega⟩
    rw [List.append_assoc, ← List.drop_drop, List.drop_left]
    simp only [List.length_append, closeB, List.length_cons, List.length_nil] at h2
    cases o with
    | zero =>
      have := head_drop_takeWhile cls rbrace hr w hw 0 (by omega)
      simp only [List.drop_zero] at this
      exact matchHere_closeB_none2 w this
    | succ o =>
      have := head_drop_takeWhile cls rbrace hr w hw o (by omega)
      exact matchHere_closeB_none _ this

/-- The marker regular expression on a well-delimited marker. -/
theorem matchHere_re (body w : Str) (hb : body ≠ []) (hl : lbrace ∉ body)
    (hw : rbrace ∉ w.takeWhile (fun c => c != lbrace)) :
    matchHere Scanner.re (openB ++ (body ++ closeB ++ w)) = some (body.length + 4, body) := by
  have hg := greedy_closeB (fun c => c != lbrace) body w hb
    (fun c hc => by
      have : c ≠ lbrace := fun e => hl (e ▸ hc)
      simp [this])
    (by decide) hw
  show matchHere (lits openB ++ (Piece.capPlus (fun c => c != lbrace) :: lits closeB))
    (openB ++ (body ++ closeB ++ w)) = _
  rw [matchHere_lits_append, matchHere_capPlus, hg]
  simp [openB]


theorem greedy_closeB_excl (cls : Char → Bool) (body w : Str) (hb : body ≠ [])
    (hcls : ∀ c ∈ body, cls c = true) (hr : cls rbrace = false) :
    greedy (matchHere (lits closeB)) (body ++ (closeB ++ w))
      ((body ++ (closeB ++ w)).takeWhile cls).length = some (body.length, 2, []) := by
  have hrun : (body ++ (closeB ++ w)).takeWhile cls = body := by
    rw [List.takeWhile_append_of_pos hcls]
    simp [closeB, hr]
  rw [hrun]
  apply greedy_some
  · cases body with
    | nil => exact absurd rfl hb
    | cons c b => simp
  · exact Nat.le_refl _
  · rw [List.drop_left]
    exact matchHere_closeB_append w
  · intro j h1 h2
    omega

/-! ### Search -/

theorem search_of_matchHere (p : List Piece) (s : Str) (i n : Nat) (cap : Str)
    (h : matchHere p s = some (n, cap)) : search p s i = some ⟨i, n, cap⟩ := by
  cases s with
  | nil => simp [search, h]
  | cons x xs => simp [search, h]

theorem search_cons_none (p : List Piece) (x : Char) (xs : Str) (i : Nat)
    (h : matchHere p (x :: xs) = none) : search p (x :: xs) i = search p xs (i + 1) := by
  simp [search, h]

theorem needsOpen_lits (w : Str) (ps : List Piece) : NeedsOpen (lits (openB ++ w) ++ ps) := by
  intro s hs
  cases h : matchHere (lits (openB ++ w) ++ ps) s with
  | none => rfl
  | some r =>
    obtain ⟨s', hs'⟩ := matchHere_lits_sound _ _ _ _ h
    rw [hs'] at hs
    simp [openB, List.isPrefixOf] at hs

theorem needsOpen_re : NeedsOpen Scanner.re := by
  have := needsOpen_lits [] ([Piece.capPlus (fun c => c != lbrace)] ++ lits closeB)
  simpa [Scanner.re] using this

theorem needsOpen_ifRe : NeedsOpen Scanner.ifRe := by
  have := needsOpen_lits ['i', 'f']
    ([Piece.plus isSpace, Piece.capPlus (fun c => c != rbrace)] ++ lits closeB)
  simpa [Scanner.ifRe] using this

theorem needsOpen_endifRe : NeedsOpen Scanner.endifRe := by
  have := needsOpen_lits (['e', 'n', 'd', 'i', 'f'] ++ closeB) []
  simpa [Scanner.endifRe] using this

theorem needsOpen_varRe : NeedsOpen Scanner.varRe := by
  have := needsOpen_lits [] ([Piece.capPlus (fun c => c != rbrace && !isSpace c)] ++ lits closeB)
  simpa [Scanner.varRe] using this

theorem not_openB_of_head (s : Str) (h : s.head? ≠ some lbrace) : openB.isPrefixOf s = false := by
  cases s with
  | nil => rfl
  | cons x xs =>
    have hx : lbrace ≠ x := fun e => h (by simp [e])
    simp [openB, List.isPrefixOf, hx]

theorem not_openB_of_not_mem (s : Str) (h : lbrace ∉ s) : openB.isPrefixOf s = false := by
  apply not_openB_of_head
  cases s with
  | nil => simp
  | cons x xs =>
    simp only [List.head?_cons, ne_eq, Option.some.injEq]
    intro e
    exact h (by simp [e])

theorem not_openB_cons (x : Char) (s : Str) (h : lbrace ∉ s) :
    openB.isPrefixOf (x :: s) = false := by
  cases s with
  | nil => simp [openB, List.isPrefixOf]
  | cons y ys =>
    have hy : lbrace ≠ y := fun e => h (by simp [e])
    simp [openB, List.isPrefixOf, hy]

/-- No match where no suffix starts with `{{`. -/
theorem search_none (p : List Piece) (hp : NeedsOpen p) (s : Str) (i : Nat)
    (h : ∀ d, openB.isPrefixOf (s.drop d) = false) : search p s i = none := by
  induction s generalizing i with
  | nil =>
    have := hp [] rfl
    simp [search, this]
  | cons x xs ih =>
    have h0 := hp (x :: xs) (h 0)
    rw [search_cons_none p x xs i h0]
    exact ih (i + 1) (fun d => h (d + 1))

theorem search_none_of_not_mem (p : List Piece) (hp : NeedsOpen p) (s : Str) (i : Nat)
    (h : lbrace ∉ s) : search p s i = none := by
  apply search_none p hp
  intro d
  exact not_openB_of_not_mem _ (fun hm => h (List.mem_of_mem_drop hm))

/-- Search skips a prefix without opening brace. -/
theorem search_skip (p : List Piece) (hp : NeedsOpen p) (a s : Str) (i : Nat)
    (h : lbrace ∉ a) : search p (a ++ s) i = search p s (i + a.length) := by
  induction a generalizing i with
  | nil => rfl
  | cons x xs ih =>
    have hx : lbrace ≠ x := fun e => h (by simp [e])
    have h0 : matchHere p (x :: (xs ++ s)) = none :=
      hp _ (by simp [openB, List.isPrefixOf, hx])
    rw [List.cons_append, search_cons_none p x _ i h0, ih (i + 1) (fun hm => h (by simp [hm]))]
    simp only [List.length_cons]
    congr 1
    omega

/-- In `{{w` with no further opening brace, only position 0 can match. -/
theorem search_openB (p : List Piece) (hp : NeedsOpen p) (w : Str) (i : Nat) (h : lbrace ∉ w) :
    search p (openB ++ w) i =
      match matchHere p (openB ++ w) with
      | some (n, cap) => some ⟨i, n, cap⟩
      | none => none := by
  cases hm : matchHere p (openB ++ w) with
  | some r => exact search_of_matchHere p _ i r.1 r.2 hm
  | none =>
    have hm' : matchHere p (lbrace :: (lbrace :: w)) = none := hm
    show search p (lbrace :: (lbrace :: w)) i = none
    rw [search_cons_none p _ _ i hm']
    have h1 : matchHere p (lbrace :: w) = none := hp _ (not_openB_cons _ _ h)
    rw [search_cons_none p _ _ _ h1]
    exact search_none_of_not_mem p hp w _ h

theorem search_sound (p : List Piece) (s : Str) (i : Nat) (m : Match)
    (h : search p s i = some m) :
    ∃ d, d ≤ s.length ∧ m.index = i + d ∧ matchHere p (s.drop d) = some (m.length, m.group1) := by
  induction s generalizing i with
  | nil =>
    cases hm : matchHere p [] with
    | none => simp [search, hm] at h
    | some r =>
      simp only [search, hm, Option.some.injEq] at h
      subst h
      exact ⟨0, by simp, rfl, by simpa using hm⟩
  | cons x xs ih =>
    cases hm : matchHere p (x :: xs) with
    | none =>
      rw [search_cons_none p x xs i hm] at h
      obtain ⟨d, h1, h2, h3⟩ := ih (i + 1) h
      exact ⟨d + 1, by simp; omega, by omega, by simpa using h3⟩
    | some r =>
      simp only [search, hm, Option.some.injEq] at h
      subst h
      exact ⟨0, by simp, rfl, by simpa using hm⟩


/-! ### Classification of raw tokens -/

theorem openB_isPrefixOf_append (s : Str) : openB.isPrefixOf (openB ++ s) = true := by
  simp [openB, List.isPrefixOf]

theorem takeWhile_nil_of_all_false (cls : Char → Bool) (s : Str)
    (h : ∀ c ∈ s, cls c = false) : s.takeWhile cls = [] := by
  cases s with
  | nil => rfl
  | cons x xs =>
    have hx : cls x = false := h x (by simp)
    simp [List.takeWhile_cons, hx]

/-- Two texts without `}` that are followed by `}}` at the same place are equal. -/
theorem eq_of_append_closeB (n w s' : Str) (hn : rbrace ∉ n) (hw : rbrace ∉ w)
    (h : n ++ closeB = w ++ (closeB ++ s')) : n = w := by
  induction n generalizing w with
  | nil =>
    cases w with
    | nil => rfl
    | cons d w' =>
      simp only [closeB, List.nil_append, List.cons_append, List.cons.injEq] at h
      exact absurd (by simp [← h.1]) hw
  | cons c n' ih =>
    cases w with
    | nil =>
      simp only [closeB, List.nil_append, List.cons_append, List.cons.injEq] at h
      exact absurd (by simp [h.1]) hn
    | cons d w' =>
      simp only [List.cons_append, List.cons.injEq] at h
      rw [h.1, ih w' (fun hm => hn (by simp [hm])) (fun hm => hw (by simp [hm])) h.2]

theorem matchHere_varRe (n w : Str) (hn : n ≠ []) (hr : rbrace ∉ n)
    (hs : ∀ c ∈ n, isSpace c = false) :
    matchHere Scanner.varRe (openB ++ (n ++ (closeB ++ w))) = some (n.length + 4, n) := by
  have hg := greedy_closeB_excl (fun c => c != rbrace && !isSpace c) n w hn
    (fun c hc => by
      have h1 : c ≠ rbrace := fun e => hr (e ▸ hc)
      simp [h1, hs c hc])
    (by decide)
  show matchHere (lits openB ++
    (Piece.capPlus (fun c => c != rbrace && !isSpace c) :: lits closeB))
    (openB ++ (n ++ (closeB ++ w))) = _
  rw [matchHere_lits_append, matchHere_capPlus, hg]
  simp [openB]

theorem matchHere_ifRe_none (n : Str) (hs : ∀ c ∈ n, isSpace c = false) :
    matchHere Scanner.ifRe (openB ++ (n ++ closeB)) = none := by
  show matchHere (lits openB ++ (lits ['i', 'f'] ++
    (Piece.plus isSpace :: Piece.capPlus (fun c => c != rbrace) :: lits closeB)))
    (openB ++ (n ++ closeB)) = _
  rw [matchHere_lits_append]
  cases hm : matchHere (lits ['i', 'f'] ++
      (Piece.plus isSpace :: Piece.capPlus (fun c => c != rbrace) :: lits closeB))
      (n ++ closeB) with
  | none => rfl
  | some r =>
    exfalso
    obtain ⟨s', hs'⟩ := matchHere_lits_sound _ _ _ _ hm
    rw [hs', matchHere_lits_append, matchHere_plus] at hm
    have hall : ∀ c ∈ s', isSpace c = false := by
      intro c hc
      have hc' : c ∈ n ++ closeB := by
        rw [hs']
        exact List.mem_append_right _ hc
      rcases List.mem_append.mp hc' with h | h
      · exact hs c h
      · have : c = rbrace := by simpa [closeB] using h
        rw [this]
        exact isSpace_rbrace
    rw [takeWhile_nil_of_all_false isSpace s' hall] at hm
    simp [greedy] at hm

theorem matchHere_endifRe_none (n : Str) (hr : rbrace ∉ n)
    (hne : n ≠ ['e', 'n', 'd', 'i', 'f']) :
    matchHere Scanner.endifRe (openB ++ (n ++ closeB)) = none := by
  show matchHere (lits openB ++ (lits ['e', 'n', 'd', 'i', 'f'] ++ lits closeB))
    (openB ++ (n ++ closeB)) = _
  rw [matchHere_lits_append]
  cases hm : matchHere (lits ['e', 'n', 'd', 'i', 'f'] ++ lits closeB) (n ++ closeB) with
  | none => rfl
  | some r =>
    exfalso
    obtain ⟨s', hs'⟩ := matchHere_lits_sound _ _ _ _ hm
    rw [hs', matchHere_lits_append] at hm
    cases hc : matchHere (lits closeB) s' with
    | none => simp [hc] at hm
    | some r' =>
      have := matchHere_lits_sound closeB [] s' r' (by simpa using hc)
      obtain ⟨s'', hs''⟩ := this
      rw [hs''] at hs'
      exact hne (eq_of_append_closeB n _ s'' hr (by decide) hs')

theorem parameterize1_text (s : Str) (h : openB.isPrefixOf s = false) :
    Scanner.parameterize1 s = some (Token.source s) := by
  simp [Scanner.parameterize1, h]

/-- A variable marker `{{n}}` is classified as `{var: n}`. -/
theorem parameterize1_var (n : Str) (hn : n ≠ []) (hl : lbrace ∉ n) (hr : rbrace ∉ n)
    (hs : ∀ c ∈ n, isSpace c = false) (hne : n ≠ ['e', 'n', 'd', 'i', 'f']) :
    Scanner.parameterize1 (openB ++ (n ++ closeB)) = some (Token.var n) := by
  have hmem : lbrace ∉ n ++ closeB := by
    simp only [List.mem_append, not_or]
    exact ⟨hl, by decide⟩
  have h1 : exec Scanner.ifRe (openB ++ (n ++ closeB)) 0 = none := by
    rw [exec, List.drop_zero, search_openB _ needsOpen_ifRe _ _ hmem, matchHere_ifRe_none n hs]
  have h2 : exec Scanner.endifRe (openB ++ (n ++ closeB)) 0 = none := by
    rw [exec, List.drop_zero, search_openB _ needsOpen_endifRe _ _ hmem,
      matchHere_endifRe_none n hr hne]
  have h3 : exec Scanner.varRe (openB ++ (n ++ closeB)) 0 = some ⟨0, n.length + 4, n⟩ := by
    have := matchHere_varRe n [] hn hr hs
    rw [List.append_nil] at this
    rw [exec, List.drop_zero, search_openB _ needsOpen_varRe _ _ hmem, this]
  simp [Scanner.parameterize1, openB_isPrefixOf_append, h1, h2, h3]

theorem matchHere_ifRe (c w : Str) (hc : c ≠ []) (hr : rbrace ∉ c)
    (hh : ∀ x, c.head? = some x → isSpace x = false) :
    matchHere Scanner.ifRe (openB ++ (['i', 'f', ' '] ++ (c ++ (closeB ++ w)))) =
      some (c.length + 7, c) := by
  have hg := greedy_closeB_excl (fun x => x != rbrace) c w hc
    (fun x hx => by
      have h1 : x ≠ rbrace := fun e => hr (e ▸ hx)
      simp [h1])
    (by decide)
  have hcap : matchHere (Piece.capPlus (fun x => x != rbrace) :: lits closeB)
      (c ++ (closeB ++ w)) = some (c.length + 2, c) := by
    rw [matchHere_capPlus, hg]
    simp
  have hrun : (' ' :: (c ++ (closeB ++ w))).takeWhile isSpace = [' '] := by
    cases c with
    | nil => exact absurd rfl hc
    | cons x xs =>
      have hx : isSpace x = false := hh x rfl
      have h0 : isSpace ' ' = true := by decide
      simp [List.takeWhile_cons, hx, h0]
  have hplus : matchHere (Piece.plus isSpace :: Piece.capPlus (fun x => x != rbrace) ::
      lits closeB) (' ' :: (c ++ (closeB ++ w))) = some (c.length + 3, c) := by
    rw [matchHere_plus, hrun]
    simp only [List.length_singleton, greedy, List.drop_succ_cons, List.drop_zero, hcap]
    simp
    omega
  show matchHere (lits (openB ++ ['i', 'f']) ++
    (Piece.plus isSpace :: Piece.capPlus (fun x => x != rbrace) :: lits closeB))
    ((openB ++ ['i', 'f']) ++ (' ' :: (c ++ (closeB ++ w)))) = _
  rw [matchHere_lits_append, hplus]
  simp [openB]

/-- An opening marker `{{if c}}` is classified as `{if: c}`. -/
theorem parameterize1_if (c : Str) (hc : c ≠ []) (hr : rbrace ∉ c)
    (hh : ∀ x, c.head? = some x → isSpace x = false) :
    Scanner.parameterize1 (openB ++ (['i', 'f', ' '] ++ (c ++ closeB))) =
      some (Token.ifTok c) := by
  have h1 : exec Scanner.ifRe (openB ++ (['i', 'f', ' '] ++ (c ++ closeB))) 0 =
      some ⟨0, c.length + 7, c⟩ := by
    have := matchHere_ifRe c [] hc hr hh
    rw [List.append_nil] at this
    rw [exec, List.drop_zero]
    exact search_of_matchHere _ _ _ _ _ this
  unfold Scanner.parameterize1
  rw [openB_isPrefixOf_append, h1]
  rfl

/-- The closing marker `{{endif}}` is classified as `{endif: 'endif'}`. -/
theorem parameterize1_endif :
    Scanner.parameterize1 (openB ++ (['e', 'n', 'd', 'i', 'f'] ++ closeB)) = some Token.endif := by
  rfl


/-! ### The scanning loop -/

/-- One iteration of the scanning loop: literal text `p` followed by a marker. -/
theorem tokenizeLoop_marker (txt pre p mk rest cap : Str) (fuel lastCut : Nat) (acc : List Str)
    (htxt : txt = pre ++ (p ++ (mk ++ rest))) (hcut : lastCut = pre.length)
    (hp : lbrace ∉ p) (hm : matchHere Scanner.re (mk ++ rest) = some (mk.length, cap)) :
    Scanner.tokenizeLoop txt (fuel + 1) lastCut acc =
      Scanner.tokenizeLoop txt fuel (pre.length + p.length + mk.length) (acc ++ [p, mk]) := by
  subst htxt
  subst hcut
  have he : exec Scanner.re (pre ++ (p ++ (mk ++ rest))) pre.length =
      some ⟨pre.length + p.length, mk.length, cap⟩ := by
    rw [exec, List.drop_left, search_skip _ needsOpen_re _ _ _ hp]
    exact search_of_matchHere _ _ _ _ _ hm
  rw [Scanner.tokenizeLoop, he]
  have h1 : substr (pre ++ (p ++ (mk ++ rest))) pre.length (pre.length + p.length - pre.length)
      = p := by
    rw [substr, List.drop_left, Nat.add_sub_cancel_left, List.take_left]
  have h2 : substr (pre ++ (p ++ (mk ++ rest))) (pre.length + p.length) mk.length = mk := by
    rw [substr, ← List.append_assoc pre p, ← List.length_append, List.drop_left, List.take_left]
  simp only [h1, h2, Nat.add_assoc]

/-- Last iteration of the scanning loop: the rest holds no opening brace. -/
theorem tokenizeLoop_rest (txt pre q : Str) (fuel lastCut : Nat) (acc : List Str)
    (htxt : txt = pre ++ q) (hcut : lastCut = pre.length) (hq : lbrace ∉ q) :
    Scanner.tokenizeLoop txt (fuel + 1) lastCut acc = .ok (acc ++ [q]) := by
  subst htxt
  subst hcut
  have he : exec Scanner.re (pre ++ q) pre.length = none := by
    rw [exec, List.drop_left]
    exact search_none_of_not_mem _ needsOpen_re _ _ hq
  rw [Scanner.tokenizeLoop, he]
  have h1 : substr (pre ++ q) pre.length ((pre ++ q).length - pre.length) = q := by
    rw [substr, List.drop_left, List.length_append, Nat.add_sub_cancel_left, List.take_length]
  simp only [h1]

/-- More fuel does not change a result of the scanning loop. -/
theorem tokenizeLoop_mono (txt : Str) (fuel fuel' lastCut : Nat) (acc r : List Str)
    (h : Scanner.tokenizeLoop txt fuel lastCut acc = .ok r) (hf : fuel ≤ fuel') :
    Scanner.tokenizeLoop txt fuel' lastCut acc = .ok r := by
  induction fuel generalizing fuel' lastCut acc with
  | zero => simp [Scanner.tokenizeLoop] at h
  | succ f ih =>
    obtain ⟨g, rfl⟩ : ∃ g, fuel' = g + 1 := ⟨fuel' - 1, by omega⟩
    rw [Scanner.tokenizeLoop] at h ⊢
    cases he : exec Scanner.re txt lastCut with
    | none =>
      rw [he] at h
      exact h
    | some m =>
      rw [he] at h
      exact ih _ _ _ h (by omega)

/-- From the raw tokens of the loop to the result of `tokenize`. -/
theorem tokenize_of_loop (txt : Str) (fuel : Nat) (raw : List Str)
    (h : Scanner.tokenizeLoop txt fuel 0 [] = .ok raw) (hf : fuel ≤ txt.length + 1) :
    Scanner.tokenize txt =
      .ok ((raw.filter (fun t => t.length != 0)).map Scanner.parameterize1) := by
  rw [Scanner.tokenize, tokenizeLoop_mono txt fuel _ 0 [] raw h hf]
  rfl

/-! ### The variable environment -/

theorem JsMap.has_set (m : JsMap) (k : Str) (v : Val) (k' : Str) :
    JsMap.has (JsMap.set m k v) k' = (decide (k = k') || JsMap.has m k') := by
  induction m with
  | nil => simp [JsMap.set, JsMap.has]
  | cons e m ih =>
    obtain ⟨a, b⟩ := e
    by_cases h : a = k
    · subst h
      by_cases h' : a = k' <;> simp [JsMap.set, JsMap.has, h']
    · by_cases h' : a = k'
      · subst h'
        simp [JsMap.set, JsMap.has, h]
      · simp [JsMap.set, JsMap.has, h, h', ih]

theorem JsMap.get_set (m : JsMap) (k : Str) (v : Val) (k' : Str) :
    JsMap.get (JsMap.set m k v) k' = if k = k' then v else JsMap.get m k' := by
  induction m with
  | nil => simp [JsMap.set, JsMap.get]
  | cons e m ih =>
    obtain ⟨a, b⟩ := e
    by_cases h : a = k
    · subst h
      by_cases h' : a = k' <;> simp [JsMap.set, JsMap.get, h']
    · by_cases h' : a = k'
      · subst h'
        simp [JsMap.set, JsMap.get, h, Ne.symm h]
      · simp [JsMap.set, JsMap.get, h, h', ih]

theorem JsMap.has_foldl (o : Obj) (m : JsMap) (k : Str) :
    JsMap.has (o.foldl (fun m e => JsMap.set m e.1 e.2) m) k =
      (Obj.hasKey o k || JsMap.has m k) := by
  induction o generalizing m with
  | nil => simp [Obj.hasKey]
  | cons e o ih =>
    rw [List.foldl_cons, ih, JsMap.has_set]
    simp only [Obj.hasKey, List.any_cons]
    cases decide (e.1 = k) <;> cases o.any (fun e => decide (e.1 = k)) <;> simp

theorem JsMap.get_foldl (o : Obj) (m : JsMap) (k : Str) :
    JsMap.get (o.foldl (fun m e => JsMap.set m e.1 e.2) m) k =
      if Obj.hasKey o k then Obj.read o k else JsMap.get m k := by
  induction o generalizing m with
  | nil => simp [Obj.hasKey]
  | cons e o ih =>
    obtain ⟨a, b⟩ := e
    rw [List.foldl_cons, ih, JsMap.get_set]
    by_cases h1 : Obj.hasKey o k = true
    · have : Obj.hasKey ((a, b) :: o) k = true := by
        simp only [Obj.hasKey, List.any_cons] at h1 ⊢
        simp [h1]
      simp [h1, this, Obj.read]
    · by_cases h2 : a = k
      · subst h2
        have : Obj.hasKey ((a, b) :: o) a = true := by
          simp [Obj.hasKey, List.any_cons]
        simp [h1, this, Obj.read]
      · have : Obj.hasKey ((a, b) :: o) k = false := by
          simp only [Obj.hasKey, List.any_cons] at h1 ⊢
          simp [h1, h2]
        simp [h1, h2, this]

theorem Obj.read_of_not_hasKey (o : Obj) (k : Str) (h : Obj.hasKey o k = false) :
    Obj.read o k = none := by
  induction o with
  | nil => rfl
  | cons e o ih =>
    obtain ⟨a, b⟩ := e
    simp only [Obj.hasKey, List.any_cons, Bool.or_eq_false_iff, decide_eq_false_iff_not] at h
    have h2 : Obj.hasKey o k = false := h.2
    simp [Obj.read, h2, h.1]

/-- Lookup in the merged environment: a global binding wins, then a local one. -/
theorem get_mkVariables (L G : Obj) (k : Str) :
    JsMap.get (Evaluator.mkVariables L G) k =
      if Obj.hasKey G k then Obj.read G k else Obj.read L k := by
  rw [Evaluator.mkVariables, JsMap.get_foldl, JsMap.get_foldl]
  by_cases h : Obj.hasKey L k = true
  · simp [h]
  · have h' : Obj.hasKey L k = false := by simpa using h
    simp [h', Obj.read_of_not_hasKey L k h', JsMap.get]

/-- Presence in the merged environment: a key of either mapping. -/
theorem has_mkVariables (L G : Obj) (k : Str) :
    JsMap.has (Evaluator.mkVariables L G) k = (Obj.hasKey L k || Obj.hasKey G k) := by
  rw [Evaluator.mkVariables, JsMap.has_foldl, JsMap.has_foldl]
  simp [JsMap.has, Bool.or_comm]


/-! ### Rendering of the basic templates -/

theorem not_mem_takeWhile (x : Char) (cls : Char → Bool) (t : Str) (ht : x ∉ t) :
    x ∉ t.takeWhile cls :=
  fun h => ht ((List.takeWhile_sublist cls).subset h)

theorem not_mem_takeWhile_open (x : Char) (t r : Str) (ht : x ∉ t) :
    x ∉ (t ++ (openB ++ r)).takeWhile (fun c => c != lbrace) := by
  rw [List.takeWhile_append]
  split
  · have : (openB ++ r).takeWhile (fun c => c != lbrace) = [] := by
      simp [openB, List.takeWhile_cons]
    rw [this, List.append_nil]
    exact ht
  · exact not_mem_takeWhile x _ t ht

theorem endif_toList : "endif".toList = ['e', 'n', 'd', 'i', 'f'] := rfl

theorem if_toList : "if ".toList = ['i', 'f', ' '] := rfl

/-- Raw tokens of `p{{n}}q`. -/
theorem tokenizeLoop_var (p n q : Str) (hp : lbrace ∉ p) (hn : n ≠ []) (hnl : lbrace ∉ n)
    (hql : lbrace ∉ q) (hqr : rbrace ∉ q) :
    Scanner.tokenizeLoop (p ++ openB ++ n ++ closeB ++ q) 2 0 [] =
      .ok [p, openB ++ (n ++ closeB), q] := by
  have hm : matchHere Scanner.re ((openB ++ (n ++ closeB)) ++ q) =
      some ((openB ++ (n ++ closeB)).length, n) := by
    have := matchHere_re n q hn hnl (not_mem_takeWhile _ _ _ hqr)
    simp only [List.append_assoc] at this ⊢
    rw [this]
    simp [openB, closeB]
  rw [tokenizeLoop_marker _ [] p (openB ++ (n ++ closeB)) q n 1 0 [] (by simp) rfl hp hm]
  rw [tokenizeLoop_rest _ (p ++ (openB ++ (n ++ closeB))) q 0 _ _ (by simp) (by simp) hql]
  rfl

theorem render_var (p q n : Str) (L G : Obj) (hp : NoBraces p) (hq : NoBraces q)
    (hn : ValidName n) :
    render (p ++ openB ++ n ++ closeB ++ q) L G =
      .ok (some (p ++ toStr (JsMap.get (Evaluator.mkVariables L G) n) ++ q)) := by
  obtain ⟨⟨hn0, hns, hnl, hnr⟩, hne⟩ := hn
  have hraw := tokenizeLoop_var p n q hp.1 hn0 hnl hq.1 hq.2
  have htok := tokenize_of_loop _ 2 _ hraw (by simp [openB]; omega)
  have hv := parameterize1_var n hn0 hnl hnr hns (by rw [← endif_toList]; exact hne)
  have hne' : (openB ++ (n ++ closeB)).length ≠ 0 := by simp [openB]
  have hsrc : ∀ s : Str, lbrace ∉ s →
      Scanner.parameterize1 s = some (Token.source s) :=
    fun s hs => parameterize1_text s (not_openB_of_not_mem s hs)
  have hP := hsrc p hp.1
  have hQ := hsrc q hq.1
  rcases p with _ | ⟨x, p⟩ <;> rcases q with _ | ⟨y, q⟩ <;>
    simp only [render, htok, List.filter, hv, List.map] <;>
    simp [hne', hv, hP, hQ, Parser.buildAST, Parser.buildASTCursor, Parser.parseLines,
      Parser.parseLinesLoop, Parser.seeSource, Parser.seeVariable, Parser.next,
      Evaluator.evaluate, Evaluator.evaluateStatements, Evaluator.getVariable, hn0, toStr]


/-- The marker regular expression matches a whole marker `{{body}}`. -/
theorem matchHere_re_marker (body w : Str) (hb : body ≠ []) (hl : lbrace ∉ body)
    (hw : rbrace ∉ w.takeWhile (fun c => c != lbrace)) :
    matchHere Scanner.re ((openB ++ (body ++ closeB)) ++ w) =
      some ((openB ++ (body ++ closeB)).length, body) := by
  have := matchHere_re body w hb hl hw
  simp only [List.append_assoc] at this ⊢
  rw [this]
  simp [openB, closeB]

/-- Raw tokens of `{{if c}}t{{endif}}`. -/
theorem tokenizeLoop_if (c t : Str) (hcl : lbrace ∉ c) (ht : NoBraces t) :
    Scanner.tokenizeLoop
      (openB ++ "if ".toList ++ c ++ closeB ++ t ++ openB ++ "endif".toList ++ closeB) 3 0 [] =
      .ok [[], openB ++ (['i', 'f', ' '] ++ (c ++ closeB)), t,
        openB ++ (['e', 'n', 'd', 'i', 'f'] ++ closeB), []] := by
  have hb : lbrace ∉ ['i', 'f', ' '] ++ c := by
    simp only [List.mem_append, not_or]
    exact ⟨by decide, hcl⟩
  have hm1 := matchHere_re_marker (['i', 'f', ' '] ++ c)
    (t ++ (openB ++ (['e', 'n', 'd', 'i', 'f'] ++ closeB))) (by simp) hb
    (not_mem_takeWhile_open _ _ _ ht.2)
  have hm2 := matchHere_re_marker ['e', 'n', 'd', 'i', 'f'] [] (by simp) (by decide) (by simp)
  simp only [List.append_assoc] at hm1
  rw [tokenizeLoop_marker _ [] [] (openB ++ (['i', 'f', ' '] ++ (c ++ closeB)))
    (t ++ (openB ++ (['e', 'n', 'd', 'i', 'f'] ++ closeB))) _ 2 0 []
    (by simp [if_toList, endif_toList]) rfl (by simp)
    (by simpa only [List.append_assoc] using hm1)]
  rw [tokenizeLoop_marker _ (openB ++ (['i', 'f', ' '] ++ (c ++ closeB))) t
    (openB ++ (['e', 'n', 'd', 'i', 'f'] ++ closeB)) [] _ 1 _ _
    (by simp [if_toList, endif_toList]) (by simp) ht.1 hm2]
  rw [tokenizeLoop_rest _ (openB ++ (['i', 'f', ' '] ++ (c ++ closeB)) ++ (t ++
    (openB ++ (['e', 'n', 'd', 'i', 'f'] ++ closeB)))) [] 0 _ _
    (by simp [if_toList, endif_toList]) (by simp; omega) (by simp)]
  rfl

theorem head_not_space (c : Str) (hs : NoSpace c) :
    ∀ x, c.head? = some x → isSpace x = false :=
  fun x hx => hs x (List.mem_of_mem_head? hx)

theorem render_if (c t : Str) (L G : Obj) (hc : ValidCond c) (ht : NoBraces t) :
    render (openB ++ "if ".toList ++ c ++ closeB ++ t ++ openB ++ "endif".toList ++ closeB) L G =
      .ok (some (if Obj.hasKey L c || Obj.hasKey G c then t else [])) := by
  obtain ⟨hc0, hcs, hcl, hcr⟩ := hc
  have hraw := tokenizeLoop_if c t hcl ht
  have htok := tokenize_of_loop _ 3 _ hraw (by simp [openB])
  have hi := parameterize1_if c hc0 hcr (head_not_space c hcs)
  have he := parameterize1_endif
  simp only [List.cons_append, List.nil_append] at hi he
  have hT := parameterize1_text t (not_openB_of_not_mem t ht.1)
  have h1 : (openB ++ (['i', 'f', ' '] ++ (c ++ closeB))).length ≠ 0 := by simp [openB]
  have h2 : (openB ++ (['e', 'n', 'd', 'i', 'f'] ++ closeB)).length ≠ 0 := by simp [openB]
  by_cases hk : Obj.hasKey L c = true ∨ Obj.hasKey G c = true <;>
  rcases t with _ | ⟨x, t⟩ <;>
    simp only [render, htok, List.filter, List.map] <;>
    simp [h1, h2, hi, he, hT, hk, Parser.buildAST, Parser.buildASTCursor, Parser.parseLines,
      Parser.parseLinesLoop, Parser.parseIf, Parser.seeSource, Parser.seeVariable,
      Parser.seeIf, Parser.next, Token.ifField,
      Evaluator.evaluate, Evaluator.evaluateStatements, Evaluator.evaluateCondition,
      has_mkVariables, toStr]


/-- Raw tokens of `{{if a}}{{if b}}t{{endif}}{{endif}}`. -/
theorem tokenizeLoop_nested (a b t : Str) (hal : lbrace ∉ a) (hbl : lbrace ∉ b)
    (ht : NoBraces t) :
    Scanner.tokenizeLoop
      (openB ++ "if ".toList ++ a ++ closeB ++ openB ++ "if ".toList ++ b ++ closeB ++ t ++
        openB ++ "endif".toList ++ closeB ++ openB ++ "endif".toList ++ closeB) 5 0 [] =
      .ok [[], openB ++ (['i', 'f', ' '] ++ (a ++ closeB)), [],
        openB ++ (['i', 'f', ' '] ++ (b ++ closeB)), t,
        openB ++ (['e', 'n', 'd', 'i', 'f'] ++ closeB), [],
        openB ++ (['e', 'n', 'd', 'i', 'f'] ++ closeB), []] := by
  have hif : ∀ c : Str, lbrace ∉ c → lbrace ∉ ['i', 'f', ' '] ++ c := by
    intro c hc
    simp only [List.mem_append, not_or]
    exact ⟨by decide, hc⟩
  have hm1 := matchHere_re_marker (['i', 'f', ' '] ++ a)
    ([] ++ (openB ++ (['i', 'f', ' '] ++ (b ++ closeB) ++ (t ++ (openB ++
      (['e', 'n', 'd', 'i', 'f'] ++ closeB) ++ (openB ++ (['e', 'n', 'd', 'i', 'f'] ++ closeB)))))))
    (by simp) (hif a hal) (not_mem_takeWhile_open _ _ _ (by simp))
  have hm2 := matchHere_re_marker (['i', 'f', ' '] ++ b)
    (t ++ (openB ++ (['e', 'n', 'd', 'i', 'f'] ++ closeB ++
      (openB ++ (['e', 'n', 'd', 'i', 'f'] ++ closeB)))))
    (by simp) (hif b hbl) (not_mem_takeWhile_open _ _ _ ht.2)
  have hm3 := matchHere_re_marker ['e', 'n', 'd', 'i', 'f']
    ([] ++ (openB ++ (['e', 'n', 'd', 'i', 'f'] ++ closeB)))
    (by simp) (by decide) (not_mem_takeWhile_open _ _ _ (by simp))
  have hm4 := matchHere_re_marker ['e', 'n', 'd', 'i', 'f'] [] (by simp) (by decide) (by simp)
  rw [tokenizeLoop_marker _ [] [] (openB ++ (['i', 'f', ' '] ++ (a ++ closeB)))
    (openB ++ (['i', 'f', ' '] ++ (b ++ closeB) ++ (t ++ (openB ++
      (['e', 'n', 'd', 'i', 'f'] ++ closeB) ++ (openB ++ (['e', 'n', 'd', 'i', 'f'] ++ closeB))))))
    _ 4 0 [] (by simp [if_toList, endif_toList]) rfl (by simp)
    (by simpa only [List.append_assoc, List.nil_append] using hm1)]
  rw [tokenizeLoop_marker _ (openB ++ (['i', 'f', ' '] ++ (a ++ closeB))) []
    (openB ++ (['i', 'f', ' '] ++ (b ++ closeB)))
    (t ++ (openB ++ (['e', 'n', 'd', 'i', 'f'] ++ closeB ++
      (openB ++ (['e', 'n', 'd', 'i', 'f'] ++ closeB)))))
    _ 3 _ _ (by simp [if_toList, endif_toList]) (by simp) (by simp)
    (by simpa only [List.append_assoc] using hm2)]
  rw [tokenizeLoop_marker _ (openB ++ (['i', 'f', ' '] ++ (a ++ closeB)) ++
      (openB ++ (['i', 'f', ' '] ++ (b ++ closeB)))) t
    (openB ++ (['e', 'n', 'd', 'i', 'f'] ++ closeB))
    (openB ++ (['e', 'n', 'd', 'i', 'f'] ++ closeB))
    _ 2 _ _ (by simp [if_toList, endif_toList]) (by simp; omega) ht.1
    (by simpa only [List.append_assoc, List.nil_append] using hm3)]
  rw [tokenizeLoop_marker _ (openB ++ (['i', 'f', ' '] ++ (a ++ closeB)) ++
      (openB ++ (['i', 'f', ' '] ++ (b ++ closeB))) ++ t ++
      (openB ++ (['e', 'n', 'd', 'i', 'f'] ++ closeB))) []
    (openB ++ (['e', 'n', 'd', 'i', 'f'] ++ closeB)) []
    _ 1 _ _ (by simp [if_toList, endif_toList]) (by simp; omega) (by simp) hm4]
  rw [tokenizeLoop_rest _ (openB ++ (['i', 'f', ' '] ++ (a ++ closeB)) ++
      (openB ++ (['i', 'f', ' '] ++ (b ++ closeB))) ++ t ++
      (openB ++ (['e', 'n', 'd', 'i', 'f'] ++ closeB)) ++
      (openB ++ (['e', 'n', 'd', 'i', 'f'] ++ closeB))) [] 0 _ _
    (by simp [if_toList, endif_toList]) (by simp; omega) (by simp)]
  rfl

theorem render_nested (a b t : Str) (L G : Obj) (ha : ValidCond a) (hb : ValidCond b)
    (ht : NoBraces t) :
    render (openB ++ "if ".toList ++ a ++ closeB ++ openB ++ "if ".toList ++ b ++ closeB ++ t ++
        openB ++ "endif".toList ++ closeB ++ openB ++ "endif".toList ++ closeB) L G =
      .ok (some (if (Obj.hasKey L a || Obj.hasKey G a) && (Obj.hasKey L b || Obj.hasKey G b)
        then t else [])) := by
  obtain ⟨ha0, has, hal, har⟩ := ha
  obtain ⟨hb0, hbs, hbl, hbr⟩ := hb
  have hraw := tokenizeLoop_nested a b t hal hbl ht
  have htok := tokenize_of_loop _ 5 _ hraw (by simp [openB])
  have hia := parameterize1_if a ha0 har (head_not_space a has)
  have hib := parameterize1_if b hb0 hbr (head_not_space b hbs)
  have he := parameterize1_endif
  simp only [List.cons_append, List.nil_append] at hia hib he
  have hT := parameterize1_text t (not_openB_of_not_mem t ht.1)
  have h1 : ∀ c : Str, (openB ++ (['i', 'f', ' '] ++ (c ++ closeB))).length ≠ 0 := by
    intro c
    simp [openB]
  have h2 : (openB ++ (['e', 'n', 'd', 'i', 'f'] ++ closeB)).length ≠ 0 := by simp [openB]
  by_cases hka : Obj.hasKey L a = true ∨ Obj.hasKey G a = true <;>
  by_cases hkb : Obj.hasKey L b = true ∨ Obj.hasKey G b = true <;>
  rcases t with _ | ⟨x, t⟩ <;>
    simp only [render, htok, List.filter, List.map] <;>
    simp [h1, h2, hia, hib, he, hT, hka, hkb, Parser.buildAST, Parser.buildASTCursor,
      Parser.parseLines, Parser.parseLinesLoop, Parser.parseIf, Parser.seeSource,
      Parser.seeVariable, Parser.seeIf, Parser.next, Token.ifField,
      Evaluator.evaluate, Evaluator.evaluateStatements, Evaluator.evaluateCondition,
      has_mkVariables, toStr]


theorem hasKey_of_read (o : Obj) (k : Str) (v : Str) (h : Obj.read o k = some v) :
    Obj.hasKey o k = true := by
  cases hk : Obj.hasKey o k with
  | true => rfl
  | false =>
    rw [Obj.read_of_not_hasKey o k hk] at h
    cases h

/-! ### What a match looks like -/

theorem mem_take_takeWhile (cls : Char → Bool) (x : Str) (k : Nat)
    (hk : k ≤ (x.takeWhile cls).length) : ∀ c ∈ x.take k, cls c = true := by
  intro c hc
  have hx : x = x.takeWhile cls ++ x.dropWhile cls := (List.takeWhile_append_dropWhile cls x).symm
  rw [hx, List.take_append_of_le_length hk] at hc
  exact List.mem_takeWhile_imp (List.mem_of_mem_take hc)

/-- A match of `(cls+)}}` splits the input into the captured text, the two
closing braces and a rest. -/
theorem capPlus_closeB_sound (cls : Char → Bool) (x : Str) (n : Nat) (cap : Str)
    (h : matchHere (Piece.capPlus cls :: lits closeB) x = some (n, cap)) :
    ∃ rest, x = cap ++ (closeB ++ rest) ∧ cap ≠ [] ∧ (∀ c ∈ cap, cls c = true) ∧
      n = cap.length + 2 := by
  rw [matchHere_capPlus] at h
  cases hg : greedy (matchHere (lits closeB)) x (x.takeWhile cls).length with
  | none => rw [hg] at h; simp at h
  | some r =>
    obtain ⟨k, n2, c2⟩ := r
    rw [hg] at h
    simp only [Option.some.injEq, Prod.mk.injEq] at h
    obtain ⟨hn, hcap⟩ := h
    obtain ⟨h1, h2, h3, _⟩ := greedy_sound _ _ _ _ _ hg
    obtain ⟨rest, hrest⟩ := matchHere_lits_sound closeB [] (x.drop k) (n2, c2)
      (by rw [List.append_nil]; exact h3)
    have hlen : k ≤ x.length := le_trans h2 (List.takeWhile_sublist cls).length_le
    have hn2 : n2 = 2 := by
      rw [hrest, matchHere_closeB_append] at h3
      simp only [Option.some.injEq, Prod.mk.injEq] at h3
      exact h3.1.symm
    refine ⟨rest, ?_, ?_, ?_, ?_⟩
    · rw [← hcap, ← hrest, List.take_append_drop]
    · rw [← hcap]
      intro e
      have := congrArg List.length e
      simp only [List.length_take, List.length_nil] at this
      omega
    · rw [← hcap]
      exact mem_take_takeWhile cls x k h2
    · rw [← hcap, ← hn, hn2, List.length_take]
      omega

/-- A match of the marker regular expression is `{{`, a non-empty text
without `{`, and `}}`. -/
theorem re_sound (x : Str) (n : Nat) (cap : Str)
    (h : matchHere Scanner.re x = some (n, cap)) :
    ∃ rest, x = openB ++ (cap ++ (closeB ++ rest)) ∧ cap ≠ [] ∧ lbrace ∉ cap ∧
      n = cap.length + 4 := by
  have h' : matchHere (lits openB ++ (Piece.capPlus (fun c => c != lbrace) :: lits closeB)) x =
      some (n, cap) := h
  obtain ⟨x', hx'⟩ := matchHere_lits_sound _ _ _ _ h'
  subst hx'
  rw [matchHere_lits_append] at h'
  cases hm : matchHere (Piece.capPlus (fun c => c != lbrace) :: lits closeB) x' with
  | none => rw [hm] at h'; simp at h'
  | some r =>
    obtain ⟨n1, c1⟩ := r
    rw [hm] at h'
    simp only [Option.some.injEq, Prod.mk.injEq] at h'
    obtain ⟨hn, hc⟩ := h'
    subst hc
    obtain ⟨rest, h1, h2, h3, h4⟩ := capPlus_closeB_sound _ _ _ _ hm
    refine ⟨rest, by rw [h1], h2, ?_, ?_⟩
    · intro hmem
      have := h3 lbrace hmem
      simp at this
    · rw [← hn, h4]
      simp [openB]

theorem exec_re_none_of_no_marker (s : Str) (h : ¬ HasMarker s) :
    exec Scanner.re s 0 = none := by
  cases he : exec Scanner.re s 0 with
  | none => rfl
  | some m =>
    exfalso
    rw [exec, List.drop_zero] at he
    obtain ⟨d, _, _, hm⟩ := search_sound _ _ _ _ he
    obtain ⟨rest, h1, h2, h3, _⟩ := re_sound _ _ _ hm
    have hs : s.take d ++ (openB ++ (m.group1 ++ (closeB ++ rest))) = s := by
      rw [← h1, List.take_append_drop]
    refine h ⟨s.take d, m.group1, rest, ?_, h2, h3⟩
    simp only [List.append_assoc]
    exact hs.symm

/-- A template without marker that does not start with `{{` is rendered
unchanged. -/
theorem render_literal (s : Str) (L G : Obj) (h : ¬ HasMarker s)
    (hs : openB.isPrefixOf s = false) : render s L G = .ok (some s) := by
  have hraw : Scanner.tokenizeLoop s 1 0 [] = .ok [s] := by
    rw [Scanner.tokenizeLoop, exec_re_none_of_no_marker s h]
    simp [substr]
  have htok := tokenize_of_loop s 1 _ hraw (by omega)
  have hT := parameterize1_text s hs
  rcases s with _ | ⟨x, s⟩ <;>
    simp only [render, htok, List.filter, List.map] <;>
    simp [hT, Parser.buildAST, Parser.buildASTCursor, Parser.parseLines,
      Parser.parseLinesLoop, Parser.seeSource, Parser.seeVariable, Parser.next,
      Evaluator.evaluate, Evaluator.evaluateStatements, toStr]

/-! ### The parser on classified tokens -/

theorem getD_map_some (ts : List Token) (i : Nat) (h : i < ts.length) :
    ∃ t, (ts.map some).getD i none = some t := by
  refine ⟨ts.get ⟨i, h⟩, ?_⟩
  simp [List.getD_eq_getElem?_getD, List.getElem?_map, List.getElem?_eq_getElem h]

/-- On classified tokens the loop of `parseLines` returns, with enough fuel,
and the cursor does not move backwards. -/
theorem parseLinesLoop_ok (ts : List Token) (fuel : Nat) :
    ∀ (i : Nat) (acc : List Node), ts.length < i + fuel → 0 < fuel →
      ∃ ss j, Parser.parseLinesLoop (ts.map some) fuel i acc = .ok (ss, j) ∧ i ≤ j := by
  induction fuel with
  | zero => intro i acc _ h0; omega
  | succ fuel ih =>
    intro i acc hlen _
    rw [Parser.parseLinesLoop]
    by_cases hi : i < (ts.map some).length
    · rw [if_pos hi]
      have hi' : i < ts.length := by simpa using hi
      obtain ⟨t, ht⟩ := getD_map_some ts i hi'
      rw [ht]
      simp only
      by_cases h1 : (Parser.seeSource t || Parser.seeVariable t) = true
      · rw [if_pos h1]
        obtain ⟨ss, j, hj, hle⟩ := ih (Parser.next (ts.map some) i).2 (acc ++ [Node.tok t])
          (by simp only [Parser.next]; omega) (by omega)
        exact ⟨ss, j, hj, by simp only [Parser.next] at hle; omega⟩
      · rw [if_neg h1]
        by_cases h2 : Parser.seeIf t = true
        · rw [if_pos h2]
          obtain ⟨ss, j, hj, hle⟩ := ih (i + 1) [] (by omega) (by omega)
          have hpi : Parser.parseIf
              (fun j =>
                match Parser.parseLinesLoop (ts.map some) fuel j [] with
                | .ok (ss, k) => .ok (Node.lines ss, k)
                | .error e => .error e)
              (ts.map some) i = .ok (Node.ifNode t.ifField (Node.lines ss), j + 1) := by
            simp only [Parser.parseIf, Parser.next, ht, hj]
          rw [hpi]
          simp only
          obtain ⟨ss2, j2, hj2, hle2⟩ := ih (j + 1)
            (acc ++ [Node.ifNode t.ifField (Node.lines ss)]) (by omega) (by omega)
          exact ⟨ss2, j2, hj2, by omega⟩
        · rw [if_neg h2]
          exact ⟨acc, i, rfl, Nat.le_refl _⟩
    · rw [if_neg hi]
      exact ⟨acc, i, rfl, Nat.le_refl _⟩


/-- With the fuel of `buildAST` the loop of `parseLines` never runs out of
fuel, whatever the token array holds: it returns or raises the `TypeError`. -/
theorem parseLinesLoop_fuel (tokens : List (Option Token)) (fuel : Nat) :
    ∀ (i : Nat) (acc : List Node), tokens.length < i + fuel → 0 < fuel →
      (∃ ss j, Parser.parseLinesLoop tokens fuel i acc = .ok (ss, j) ∧ i ≤ j) ∨
        Parser.parseLinesLoop tokens fuel i acc = .error Exn.typeError := by
  induction fuel with
  | zero => intro i acc _ h0; omega
  | succ fuel ih =>
    intro i acc hlen _
    rw [Parser.parseLinesLoop]
    by_cases hi : i < tokens.length
    · rw [if_pos hi]
      cases ht : tokens.getD i none with
      | none => exact Or.inr rfl
      | some t =>
        simp only
        by_cases h1 : (Parser.seeSource t || Parser.seeVariable t) = true
        · rw [if_pos h1]
          rcases ih (Parser.next tokens i).2 (acc ++ [Node.tok t])
            (by simp only [Parser.next]; omega) (by omega) with ⟨ss, j, hj, hle⟩ | herr
          · exact Or.inl ⟨ss, j, hj, by simp only [Parser.next] at hle; omega⟩
          · exact Or.inr herr
        · rw [if_neg h1]
          by_cases h2 : Parser.seeIf t = true
          · rw [if_pos h2]
            rcases ih (i + 1) [] (by omega) (by omega) with ⟨ss, j, hj, hle⟩ | herr
            · have hpi : Parser.parseIf
                  (fun j =>
                    match Parser.parseLinesLoop tokens fuel j [] with
                    | .ok (ss, k) => .ok (Node.lines ss, k)
                    | .error e => .error e)
                  tokens i = .ok (Node.ifNode t.ifField (Node.lines ss), j + 1) := by
                simp only [Parser.parseIf, Parser.next, ht, hj]
              rw [hpi]
              simp only
              rcases ih (j + 1) (acc ++ [Node.ifNode t.ifField (Node.lines ss)])
                (by omega) (by omega) with ⟨ss2, j2, hj2, hle2⟩ | herr2
              · exact Or.inl ⟨ss2, j2, hj2, by omega⟩
              · exact Or.inr herr2
            · have hpi : Parser.parseIf
                  (fun j =>
                    match Parser.parseLinesLoop tokens fuel j [] with
                    | .ok (ss, k) => .ok (Node.lines ss, k)
                    | .error e => .error e)
                  tokens i = .error Exn.typeError := by
                simp only [Parser.parseIf, Parser.next, ht, herr]
              rw [hpi]
              exact Or.inr rfl
          · rw [if_neg h2]
            exact Or.inl ⟨acc, i, rfl, Nat.le_refl _⟩
    · rw [if_neg hi]
      exact Or.inl ⟨acc, i, rfl, Nat.le_refl _⟩

/-- The method `buildAST` returns a block or raises the `TypeError`; the
bound of the model is never reached. -/
theorem buildAST_ok_or_typeError (tokens : List (Option Token)) :
    (∃ statements, Parser.buildAST tokens = .ok (Node.lines statements)) ∨
      Parser.buildAST tokens = .error Exn.typeError := by
  rcases parseLinesLoop_fuel tokens (tokens.length + 1) 0 [] (by omega) (by omega) with
    ⟨ss, j, h, _⟩ | h
  · exact Or.inl ⟨ss, by simp only [Parser.buildAST, Parser.buildASTCursor, Parser.parseLines, h]⟩
  · exact Or.inr (by simp only [Parser.buildAST, Parser.buildASTCursor, Parser.parseLines, h])

/-! ### Completeness of the marker search -/

theorem greedy_ne_none (rest : Str → Option (Nat × Str)) (s : Str) (K k : Nat)
    (h1 : 1 ≤ k) (h2 : k ≤ K) (hk : rest (s.drop k) ≠ none) : greedy rest s K ≠ none := by
  induction K with
  | zero => omega
  | succ K ih =>
    rw [greedy]
    cases hr : rest (s.drop (K + 1)) with
    | some r => simp
    | none =>
      simp only
      by_cases hK : k = K + 1
      · subst hK
        exact absurd hr hk
      · exact ih (by omega)

theorem search_ne_none (p : List Piece) (a s : Str) (i : Nat) (h : matchHere p s ≠ none) :
    search p (a ++ s) i ≠ none := by
  induction a generalizing i with
  | nil =>
    cases hm : matchHere p s with
    | none => exact absurd hm h
    | some r =>
      rw [List.nil_append, search_of_matchHere p s i r.1 r.2 hm]
      simp
  | cons x xs ih =>
    cases hm : matchHere p (x :: (xs ++ s)) with
    | none =>
      rw [List.cons_append, search_cons_none p x _ i hm]
      exact ih (i + 1)
    | some r =>
      rw [List.cons_append, search_of_matchHere p _ i r.1 r.2 hm]
      simp

theorem matchHere_re_ne_none (b c : Str) (hb : b ≠ []) (hl : lbrace ∉ b) :
    matchHere Scanner.re (openB ++ (b ++ (closeB ++ c))) ≠ none := by
  show matchHere (lits openB ++ (Piece.capPlus (fun c => c != lbrace) :: lits closeB))
    (openB ++ (b ++ (closeB ++ c))) ≠ none
  rw [matchHere_lits_append, matchHere_capPlus]
  have hall : ∀ x ∈ b, (fun c => c != lbrace) x = true := by
    intro x hx
    have : x ≠ lbrace := fun e => hl (e ▸ hx)
    simp [this]
  have hg : greedy (matchHere (lits closeB)) (b ++ (closeB ++ c))
      ((b ++ (closeB ++ c)).takeWhile (fun c => c != lbrace)).length ≠ none := by
    apply greedy_ne_none _ _ _ b.length
    · cases b with
      | nil => exact absurd rfl hb
      | cons x xs => simp
    · rw [List.takeWhile_append_of_pos hall]
      simp
    · rw [List.drop_left, matchHere_closeB_append]
      simp
  cases hgr : greedy (matchHere (lits closeB)) (b ++ (closeB ++ c))
      ((b ++ (closeB ++ c)).takeWhile (fun c => c != lbrace)).length with
  | none => exact absurd hgr hg
  | some r => simp

/-- The marker search finds a match exactly in the texts that contain a marker. -/
theorem hasMarker_iff (s : Str) : HasMarker s ↔ exec Scanner.re s 0 ≠ none := by
  constructor
  · rintro ⟨a, b, c, hs, hb, hl⟩
    rw [exec, List.drop_zero, hs]
    simp only [List.append_assoc]
    exact search_ne_none _ _ _ _ (matchHere_re_ne_none b c hb hl)
  · intro h
    by_contra hn
    exact h (exec_re_none_of_no_marker s hn)

/-! ### Termination of the scanning loop -/

theorem tokenizeLoop_total (txt : Str) (fuel : Nat) :
    ∀ (lastCut : Nat) (acc : List Str), lastCut ≤ txt.length → txt.length < lastCut + fuel →
      ∃ r, Scanner.tokenizeLoop txt fuel lastCut acc = .ok r := by
  induction fuel with
  | zero => intro lastCut acc h1 h2; omega
  | succ fuel ih =>
    intro lastCut acc h1 h2
    rw [Scanner.tokenizeLoop]
    cases he : exec Scanner.re txt lastCut with
    | none => exact ⟨_, rfl⟩
    | some m =>
      simp only
      rw [exec] at he
      obtain ⟨d, hd, hidx, hm⟩ := search_sound _ _ _ _ he
      have hle := matchHere_le _ _ _ _ hm
      obtain ⟨_, _, _, _, hn⟩ := re_sound _ _ _ hm
      simp only [List.length_drop] at hd hle
      exact ih _ _ (by omega) (by omega)

theorem tokenize_total (txt : Str) :
    ∃ raw : List Str, Scanner.tokenize txt =
      .ok ((raw.filter (fun t => t.length != 0)).map Scanner.parameterize1) := by
  obtain ⟨raw, h⟩ := tokenizeLoop_total txt (txt.length + 1) 0 [] (by omega) (by omega)
  exact ⟨raw, tokenize_of_loop txt _ raw h (Nat.le_refl _)⟩

/-! ### The captured condition -/

theorem head_drop_takeWhile_length (p : Char → Bool) (w : Str) (x : Char)
    (h : (w.drop (w.takeWhile p).length).head? = some x) : p x = false := by
  induction w with
  | nil => simp at h
  | cons c w ih =>
    by_cases hc : p c = true
    · rw [List.takeWhile_cons_of_pos hc] at h
      exact ih (by simpa using h)
    · rw [List.takeWhile_cons_of_neg hc] at h
      simp only [List.length_nil, List.drop_zero, List.head?_cons, Option.some.injEq] at h
      rw [← h]
      simpa using hc

/-- The condition captured by the `if` pattern: non-empty, without `}`, and
starting with whitespace only when it is a single whitespace character. -/
theorem ifRe_sound (x : Str) (n : Nat) (c : Str)
    (h : matchHere Scanner.ifRe x = some (n, c)) :
    c ≠ [] ∧ rbrace ∉ c ∧ (∀ y, c.head? = some y → isSpace y = true → c = [y]) := by
  have h' : matchHere (lits (openB ++ ['i', 'f']) ++
      (Piece.plus isSpace :: Piece.capPlus (fun c => c != rbrace) :: lits closeB)) x =
      some (n, c) := h
  obtain ⟨x', hx'⟩ := matchHere_lits_sound _ _ _ _ h'
  subst hx'
  rw [matchHere_lits_append, matchHere_plus] at h'
  cases hg : greedy (matchHere (Piece.capPlus (fun c => c != rbrace) :: lits closeB)) x'
      (x'.takeWhile isSpace).length with
  | none => rw [hg] at h'; simp at h'
  | some r =>
    obtain ⟨k1, n1, c1⟩ := r
    rw [hg] at h'
    simp only [Option.some.injEq, Prod.mk.injEq] at h'
    obtain ⟨_, hc⟩ := h'
    subst hc
    obtain ⟨hk1, hk2, hmatch, hmax⟩ := greedy_sound _ _ _ _ _ hg
    obtain ⟨rest, hsplit, hne, hcls, _⟩ := capPlus_closeB_sound _ _ _ _ hmatch
    have hnr : ∀ l : Str, (∀ z ∈ l, (fun c => c != rbrace) z = true) → rbrace ∉ l := by
      intro l hl hmem
      have := hl rbrace hmem
      simp at this
    refine ⟨hne, hnr c1 hcls, ?_⟩
    intro y hy hsp
    cases c1 with
    | nil => exact absurd rfl hne
    | cons y' tail =>
      simp only [List.head?_cons, Option.some.injEq] at hy
      subst hy
      cases tail with
      | nil => rfl
      | cons z tail' =>
        exfalso
        have hlt : k1 < (x'.takeWhile isSpace).length := by
          rcases Nat.lt_or_ge k1 (x'.takeWhile isSpace).length with hlt | hge
          · exact hlt
          · exfalso
            have hk : k1 = (x'.takeWhile isSpace).length := by omega
            have hh : ((x'.drop (x'.takeWhile isSpace).length)).head? = some y' := by
              rw [← hk, hsplit]
              rfl
            have := head_drop_takeWhile_length isSpace x' y' hh
            rw [this] at hsp
            cases hsp
        have hnone := hmax (k1 + 1) (by omega) (by omega)
        have hdrop : x'.drop (k1 + 1) = (z :: tail') ++ (closeB ++ rest) := by
          rw [← List.drop_drop, hsplit]
          rfl
        have hg2 := greedy_closeB_excl (fun c => c != rbrace) (z :: tail') rest (by simp)
          (fun w hw => hcls w (List.mem_cons_of_mem _ hw)) (by decide)
        rw [hdrop, matchHere_capPlus, hg2] at hnone
        simp at hnone

theorem exec_ifRe_sound (t : Str) (m : Match) (h : exec Scanner.ifRe t 0 = some m) :
    m.group1 ≠ [] ∧ rbrace ∉ m.group1 ∧
      (∀ y, m.group1.head? = some y → isSpace y = true → m.group1 = [y]) := by
  rw [exec] at h
  obtain ⟨d, _, _, hm⟩ := search_sound _ _ _ _ h
  exact ifRe_sound _ _ _ hm

theorem parameterize1_ifTok (t c : Str) (h : Scanner.parameterize1 t = some (Token.ifTok c)) :
    ∃ m, exec Scanner.ifRe t 0 = some m ∧ m.group1 = c := by
  unfold Scanner.parameterize1 at h
  split at h
  · simp at h
  · cases h1 : exec Scanner.ifRe t 0 with
    | some m =>
      rw [h1] at h
      simp only [Option.some.injEq, Token.ifTok.injEq] at h
      exact ⟨m, rfl, h⟩
    | none =>
      rw [h1] at h
      simp only at h
      cases h2 : exec Scanner.endifRe t 0 with
      | some m => rw [h2] at h; simp at h
      | none =>
        rw [h2] at h
        simp only at h
        cases h3 : exec Scanner.varRe t 0 with
        | some m => rw [h3] at h; simp at h
        | none => rw [h3] at h; simp at h

/-! ### The parser: fuel, cursor and round trip -/

theorem getD_map_some_eq (ts : List Token) (i : Nat) (t : Token) (rest : List Token)
    (h : ts.drop i = t :: rest) : (ts.map some).getD i none = some t := by
  have hi : i < ts.length := by
    by_contra hn
    rw [List.drop_eq_nil_of_le (by omega)] at h
    cases h
  have : ts[i]? = some t := by
    rw [← List.head?_drop, h]
    rfl
  simp [List.getD_eq_getElem?_getD, List.getElem?_map, this]

theorem lt_length_map_of_drop (ts : List Token) (i : Nat) (t : Token) (rest : List Token)
    (h : ts.drop i = t :: rest) : i < (ts.map some).length := by
  rw [List.length_map]
  by_contra hn
  rw [List.drop_eq_nil_of_le (by omega)] at h
  cases h

/-- More fuel does not change a result of the loop of `parseLines`. -/
theorem parseLinesLoop_mono (tokens : List (Option Token)) (fuel : Nat) :
    ∀ (fuel' i : Nat) (acc : List Node) (r : List Node × Nat),
      Parser.parseLinesLoop tokens fuel i acc = .ok r → fuel ≤ fuel' →
      Parser.parseLinesLoop tokens fuel' i acc = .ok r := by
  induction fuel with
  | zero => intro fuel' i acc r h; simp [Parser.parseLinesLoop] at h
  | succ fuel ih =>
    intro fuel' i acc r h hf
    obtain ⟨g, rfl⟩ : ∃ g, fuel' = g + 1 := ⟨fuel' - 1, by omega⟩
    have hg : fuel ≤ g := by omega
    rw [Parser.parseLinesLoop] at h ⊢
    by_cases hi : i < tokens.length
    · rw [if_pos hi] at h ⊢
      cases ht : tokens.getD i none with
      | none => rw [ht] at h; simp at h
      | some t =>
        rw [ht] at h
        simp only at h ⊢
        by_cases h1 : (Parser.seeSource t || Parser.seeVariable t) = true
        · rw [if_pos h1] at h ⊢
          exact ih _ _ _ _ h hg
        · rw [if_neg h1] at h ⊢
          by_cases h2 : Parser.seeIf t = true
          · rw [if_pos h2] at h ⊢
            simp only [Parser.parseIf, Parser.next, ht] at h ⊢
            cases hin : Parser.parseLinesLoop tokens fuel (i + 1) [] with
            | error e => rw [hin] at h; simp at h
            | ok r1 =>
              obtain ⟨ss, j⟩ := r1
              rw [hin] at h
              rw [ih _ _ _ _ hin hg]
              simp only at h ⊢
              exact ih _ _ _ _ h hg
          · rw [if_neg h2] at h ⊢
            exact h
    · rw [if_neg hi] at h ⊢
      exact h

/-- Round trip of the loop of `parseLines`: started in front of the tokens of
a list of statements that is followed by the end of the input or by an
`endif`, it returns exactly these statements and stops right after them. -/
theorem parseLinesLoop_flatten (T : List Token) (fuel : Nat) :
    ∀ (ss : List Node) (pre rest : List Token) (acc : List Node),
      allStatements ss = true → T = pre ++ (flattenList ss ++ rest) →
      (rest = [] ∨ ∃ r, rest = Token.endif :: r) → T.length < pre.length + fuel →
      Parser.parseLinesLoop (T.map some) fuel pre.length acc =
        .ok (acc ++ ss, pre.length + (flattenList ss).length) := by
  induction fuel with
  | zero =>
    intro ss pre rest acc _ hT _ hlen
    rw [hT] at hlen
    simp only [List.length_append] at hlen
    omega
  | succ fuel ih =>
    intro ss pre rest acc hss hT hrest hlen
    have hdrop : T.drop pre.length = flattenList ss ++ rest := by
      rw [hT, List.drop_left]
    rw [Parser.parseLinesLoop]
    cases ss with
    | nil =>
      simp only [flattenList, List.nil_append] at hdrop
      rcases hrest with hr | ⟨r, hr⟩
      · subst hr
        have hi : ¬ pre.length < (T.map some).length := by
          rw [hT]
          simp [flattenList]
        rw [if_neg hi]
        simp [flattenList]
      · subst hr
        have hi : pre.length < (T.map some).length := by
          rw [hT]
          simp [flattenList]
        rw [if_pos hi, getD_map_some_eq T _ _ _ hdrop]
        simp [Parser.seeSource, Parser.seeVariable, Parser.seeIf, flattenList]
    | cons n ss' =>
      simp only [allStatements, Bool.and_eq_true] at hss
      obtain ⟨hn, hss'⟩ := hss
      cases n with
      | lines l => simp [isStatement] at hn
      | tok t =>
        have hd : T.drop pre.length = t :: (flattenList ss' ++ rest) := by
          rw [hdrop]
          simp [flattenList, flatten]
        have hrec := ih ss' (pre ++ [t]) rest (acc ++ [Node.tok t]) hss'
          (by rw [hT]; simp [flattenList, flatten]) hrest
          (by simp only [List.length_append, List.length_singleton]; omega)
        rw [if_pos (lt_length_map_of_drop T _ _ _ hd), getD_map_some_eq T _ _ _ hd]
        cases t with
        | source s =>
          simp only [Parser.seeSource, Bool.true_or, if_true, Parser.next]
          simp only [List.length_append, List.length_singleton] at hrec
          rw [hrec]
          simp [flattenList, flatten]
          omega
        | var v =>
          simp only [Parser.seeSource, Parser.seeVariable, Bool.or_true, if_true, Parser.next]
          simp only [List.length_append, List.length_singleton] at hrec
          rw [hrec]
          simp [flattenList, flatten]
          omega
        | ifTok c => simp [isStatement] at hn
        | endif => simp [isStatement] at hn
      | ifNode cond body =>
        cases cond with
        | none => simp [isStatement] at hn
        | some c =>
          cases body with
          | tok t => simp [isStatement, isBlock] at hn
          | ifNode c2 b2 => simp [isStatement, isBlock] at hn
          | lines bs =>
            have hbs : allStatements bs = true := by simpa [isStatement, isBlock] using hn
            have hd : T.drop pre.length = Token.ifTok c ::
                (flattenList bs ++ (Token.endif :: (flattenList ss' ++ rest))) := by
              rw [hdrop]
              simp [flattenList, flatten]
            have hin := ih bs (pre ++ [Token.ifTok c])
              (Token.endif :: (flattenList ss' ++ rest)) [] hbs
              (by rw [hT]; simp [flattenList, flatten]) (Or.inr ⟨_, rfl⟩)
              (by simp only [List.length_append, List.length_singleton]; omega)
            have hrec := ih ss' (pre ++ [Token.ifTok c] ++ flattenList bs ++ [Token.endif]) rest
              (acc ++ [Node.ifNode (some c) (Node.lines bs)]) hss'
              (by rw [hT]; simp [flattenList, flatten]) hrest
              (by simp only [List.length_append, List.length_singleton]; omega)
            simp only [List.length_append, List.length_singleton, List.nil_append] at hin hrec
            rw [if_pos (lt_length_map_of_drop T _ _ _ hd), getD_map_some_eq T _ _ _ hd]
            simp only [Parser.seeSource, Parser.seeVariable, Parser.seeIf, Bool.or_self,
              Bool.false_eq_true, if_false, if_true, Parser.parseIf, Parser.next,
              getD_map_some_eq T _ _ _ hd, hin, Token.ifField]
            rw [hrec]
            simp [flattenList, flatten]
            omega

/-- Round trip of `buildAST` on the tokens of a block. -/
theorem buildAST_flatten (ss : List Node) (h : allStatements ss = true) :
    Parser.buildAST ((flattenList ss).map some) = .ok (Node.lines ss) := by
  have := parseLinesLoop_flatten (flattenList ss) ((flattenList ss).length + 1) ss [] [] []
    h (by simp) (Or.inl rfl) (by simp)
  simp only [List.length_nil, List.nil_append, Nat.zero_add] at this
  simp only [Parser.buildAST, Parser.buildASTCursor, Parser.parseLines, List.length_map, this]

theorem getD_map_some_get (ts : List Token) (i : Nat) (h : i < ts.length) :
    (ts.map some).getD i none = some (ts.get ⟨i, h⟩) ∧ ts[i]? = some (ts.get ⟨i, h⟩) := by
  constructor
  · simp [List.getD_eq_getElem?_getD, List.getElem?_map, List.getElem?_eq_getElem h]
  · simp [List.getElem?_eq_getElem h]

/-- Where the loop of `parseLines` stops on classified tokens: past the end of
the token array or on an `endif` token. -/
theorem parseLinesLoop_cursor (ts : List Token) (fuel : Nat) :
    ∀ (i : Nat) (acc : List Node), ts.length < i + fuel → 0 < fuel →
      ∃ ss j, Parser.parseLinesLoop (ts.map some) fuel i acc = .ok (ss, j) ∧ i ≤ j ∧
        (ts.length ≤ j ∨ ts[j]? = some Token.endif) := by
  induction fuel with
  | zero => intro i acc _ h0; omega
  | succ fuel ih =>
    intro i acc hlen _
    rw [Parser.parseLinesLoop]
    by_cases hi : i < (ts.map some).length
    · rw [if_pos hi]
      have hi' : i < ts.length := by simpa using hi
      obtain ⟨ht, hget⟩ := getD_map_some_get ts i hi'
      generalize ts.get ⟨i, hi'⟩ = t at ht hget
      rw [ht]
      simp only
      by_cases h1 : (Parser.seeSource t || Parser.seeVariable t) = true
      · rw [if_pos h1]
        obtain ⟨ss, j, hj, hle, hstop⟩ := ih (Parser.next (ts.map some) i).2
          (acc ++ [Node.tok t]) (by simp only [Parser.next]; omega) (by omega)
        exact ⟨ss, j, hj, by simp only [Parser.next] at hle; omega, hstop⟩
      · rw [if_neg h1]
        by_cases h2 : Parser.seeIf t = true
        · rw [if_pos h2]
          obtain ⟨ss, j, hj, hle, _⟩ := ih (i + 1) [] (by omega) (by omega)
          have hpi : Parser.parseIf
              (fun j =>
                match Parser.parseLinesLoop (ts.map some) fuel j [] with
                | .ok (ss, k) => .ok (Node.lines ss, k)
                | .error e => .error e)
              (ts.map some) i = .ok (Node.ifNode t.ifField (Node.lines ss), j + 1) := by
            simp only [Parser.parseIf, Parser.next, ht, hj]
          rw [hpi]
          simp only
          obtain ⟨ss2, j2, hj2, hle2, hstop2⟩ := ih (j + 1)
            (acc ++ [Node.ifNode t.ifField (Node.lines ss)]) (by omega) (by omega)
          exact ⟨ss2, j2, hj2, by omega, hstop2⟩
        · rw [if_neg h2]
          refine ⟨acc, i, rfl, Nat.le_refl _, Or.inr ?_⟩
          rw [hget]
          cases t with
          | source s => simp [Parser.seeSource] at h1
          | var v => simp [Parser.seeVariable] at h1
          | ifTok c => simp [Parser.seeIf] at h2
          | endif => rfl
    · rw [if_neg hi]
      have hi' : ts.length ≤ i := by simpa using hi
      exact ⟨acc, i, rfl, Nat.le_refl _, Or.inl hi'⟩

theorem parseIf_congr (f : Nat → Except Exn (Node × Nat)) (tokens tokens' : List (Option Token))
    (i : Nat) (h : tokens'.getD i none = tokens.getD i none) :
    Parser.parseIf f tokens' i = Parser.parseIf f tokens i := by
  simp only [Parser.parseIf, Parser.next, h]

/-- An `endif` appended to the token array does not change what the loop of
`parseLines` returns, from any cursor. -/
theorem parseLinesLoop_append_endif (tokens : List (Option Token)) (fuel : Nat) :
    ∀ (i : Nat) (acc : List Node),
      Parser.parseLinesLoop (tokens ++ [some Token.endif]) fuel i acc =
        Parser.parseLinesLoop tokens fuel i acc := by
  induction fuel with
  | zero => intro i acc; rfl
  | succ fuel ih =>
    intro i acc
    have hfun : (fun j =>
          match Parser.parseLinesLoop (tokens ++ [some Token.endif]) fuel j [] with
          | .ok (ss, k) => (.ok (Node.lines ss, k) : Except Exn (Node × Nat))
          | .error e => .error e) =
        (fun j =>
          match Parser.parseLinesLoop tokens fuel j [] with
          | .ok (ss, k) => .ok (Node.lines ss, k)
          | .error e => .error e) := by
      funext j
      rw [ih]
    rw [Parser.parseLinesLoop, Parser.parseLinesLoop, hfun]
    rcases Nat.lt_trichotomy i tokens.length with hlt | heq | hgt
    · have h1 : i < (tokens ++ [some Token.endif]).length := by simp; omega
      have hg : (tokens ++ [some Token.endif]).getD i none = tokens.getD i none := by
        simp [List.getD_eq_getElem?_getD, List.getElem?_append_left hlt]
      rw [if_pos h1, if_pos hlt, hg]
      cases tokens.getD i none with
      | none => rfl
      | some t =>
        simp only [Parser.next, ih, parseIf_congr _ _ _ i hg]
    · have h1 : i < (tokens ++ [some Token.endif]).length := by simp; omega
      have hg : (tokens ++ [some Token.endif]).getD i none = some Token.endif := by
        subst heq
        simp [List.getD_eq_getElem?_getD]
      rw [if_pos h1, if_neg (by omega), hg]
      simp [Parser.seeSource, Parser.seeVariable, Parser.seeIf]
    · have h1 : ¬ i < (tokens ++ [some Token.endif]).length := by simp; omega
      rw [if_neg h1, if_neg (by omega)]

theorem drop_succ_of_drop_cons (ts : List Token) (i : Nat) (t : Token) (tl : List Token)
    (h : ts.drop i = t :: tl) : ts.drop (i + 1) = tl := by
  rw [← List.drop_drop, h]
  rfl

/-- Inside a balanced prefix the loop of `parseLines` never looks past the
prefix: what follows the prefix does not matter, and a nested call stops on
the `endif` that closes its level. -/
theorem parseLinesLoop_balanced (pre rest : List Token) (fuel : Nat) :
    ∀ (i : Nat) (acc : List Node) (d : Nat), i ≤ pre.length →
      balancedFrom d (pre.drop i) = true →
      Parser.parseLinesLoop ((pre ++ Token.endif :: rest).map some) fuel i acc =
        Parser.parseLinesLoop (pre.map some) fuel i acc ∧
      (∀ ss j d', Parser.parseLinesLoop (pre.map some) fuel i acc = .ok (ss, j) →
        d = d' + 1 → j < pre.length ∧ balancedFrom d' (pre.drop (j + 1)) = true) := by
  induction fuel with
  | zero =>
    intro i acc d _ _
    refine ⟨rfl, ?_⟩
    intro ss j d' h
    simp [Parser.parseLinesLoop] at h
  | succ fuel ih =>
    intro i acc d hi hbal
    rw [Parser.parseLinesLoop, Parser.parseLinesLoop]
    cases hd : pre.drop i with
    | nil =>
      have hlen : i = pre.length := by
        have := congrArg List.length hd
        simp only [List.length_drop, List.length_nil] at this
        omega
      rw [hd] at hbal
      have hd0 : d = 0 := by simpa [balancedFrom] using hbal
      have hA : (pre ++ Token.endif :: rest).drop i = Token.endif :: rest := by
        rw [hlen, List.drop_left]
      rw [if_pos (lt_length_map_of_drop _ _ _ _ hA), getD_map_some_eq _ _ _ _ hA,
        if_neg (by simp [hlen])]
      refine ⟨by simp [Parser.seeSource, Parser.seeVariable, Parser.seeIf], ?_⟩
      intro ss j d' _ hdd
      omega
    | cons t tl =>
      have hA : (pre ++ Token.endif :: rest).drop i = t :: (tl ++ Token.endif :: rest) := by
        rw [List.drop_append_of_le_length hi, hd]
        rfl
      have hnext := drop_succ_of_drop_cons pre i t tl hd
      have hilt : i < pre.length := by
        have := lt_length_map_of_drop pre i t tl hd
        simpa using this
      rw [if_pos (lt_length_map_of_drop _ _ _ _ hA), getD_map_some_eq _ _ _ _ hA,
        if_pos (lt_length_map_of_drop _ _ _ _ hd), getD_map_some_eq _ _ _ _ hd]
      rw [hd] at hbal
      cases t with
      | source s =>
        simp only [Parser.seeSource, Bool.true_or, if_true, Parser.next]
        exact ih (i + 1) _ d (by omega) (by rw [hnext]; simpa [balancedFrom] using hbal)
      | var v =>
        simp only [Parser.seeSource, Parser.seeVariable, Bool.or_true, if_true, Parser.next]
        exact ih (i + 1) _ d (by omega) (by rw [hnext]; simpa [balancedFrom] using hbal)
      | endif =>
        simp only [Parser.seeSource, Parser.seeVariable, Parser.seeIf, Bool.or_self,
          Bool.false_eq_true, if_false]
        refine ⟨trivial, ?_⟩
        intro ss j d' h hdd
        simp only [Except.ok.injEq, Prod.mk.injEq] at h
        subst hdd
        rw [← h.2, hnext]
        exact ⟨hilt, by simpa [balancedFrom] using hbal⟩
      | ifTok c =>
        have hb1 : balancedFrom (d + 1) (pre.drop (i + 1)) = true := by
          rw [hnext]
          simpa [balancedFrom] using hbal
        obtain ⟨heq, hpost⟩ := ih (i + 1) [] (d + 1) (by omega) hb1
        simp only [Parser.seeSource, Parser.seeVariable, Parser.seeIf, Bool.or_self,
          Bool.false_eq_true, if_false, if_true, Parser.parseIf, Parser.next,
          getD_map_some_eq _ _ _ _ hA, getD_map_some_eq _ _ _ _ hd, heq]
        cases hin : Parser.parseLinesLoop (pre.map some) fuel (i + 1) [] with
        | error e =>
          refine ⟨rfl, ?_⟩
          intro ss j d' h
          simp at h
        | ok r =>
          obtain ⟨bs, j⟩ := r
          obtain ⟨hj, hbj⟩ := hpost bs j d hin rfl
          simp only
          exact ih (j + 1) _ d (by omega) hbj

/-- More fuel than `buildAST` supplies does not change the result on
classified tokens. -/
theorem parseLinesLoop_more_fuel (ts : List Token) (fuel : Nat) (h : ts.length + 1 ≤ fuel) :
    Parser.parseLinesLoop (ts.map some) fuel 0 [] =
      Parser.parseLinesLoop (ts.map some) (ts.length + 1) 0 [] := by
  obtain ⟨ss, j, hok, _⟩ := parseLinesLoop_ok ts (ts.length + 1) 0 [] (by omega) (by omega)
  rw [hok, parseLinesLoop_mono _ _ _ _ _ _ hok h]

theorem buildAST_append_endif (ts : List Token) :
    Parser.buildAST ((ts ++ [Token.endif]).map some) = Parser.buildAST (ts.map some) := by
  have h1 : (ts ++ [Token.endif]).map some = ts.map some ++ [some Token.endif] := by simp
  simp only [Parser.buildAST, Parser.buildASTCursor, Parser.parseLines]
  rw [h1, parseLinesLoop_append_endif]
  have h2 : (ts.map some ++ [some Token.endif]).length + 1 = ts.length + 2 := by simp
  rw [h2, parseLinesLoop_more_fuel ts (ts.length + 2) (by omega), List.length_map]

theorem buildAST_balanced (pre rest : List Token) (h : Balanced pre) :
    Parser.buildAST ((pre ++ Token.endif :: rest).map some) = Parser.buildAST (pre.map some) := by
  obtain ⟨heq, _⟩ := parseLinesLoop_balanced pre rest
    (((pre ++ Token.endif :: rest).map some).length + 1) 0 [] 0 (by omega) h
  simp only [Parser.buildAST, Parser.buildASTCursor, Parser.parseLines]
  rw [heq, parseLinesLoop_more_fuel pre _ (by simp), List.length_map]

/-! ### The evaluator -/

theorem evaluate_lines (vars : JsMap) (ss : List Node) :
    Evaluator.evaluate vars (Node.lines ss) =
      some (Evaluator.evaluateStatements vars ss []) := by
  rw [Evaluator.evaluate]

theorem evaluateStatements_acc (vars : JsMap) (ss : List Node) (s : Str) :
    Evaluator.evaluateStatements vars ss s = s ++ Evaluator.evaluateStatements vars ss [] := by
  induction ss generalizing s with
  | nil => simp [Evaluator.evaluateStatements]
  | cons n rest ih =>
    rw [Evaluator.evaluateStatements, Evaluator.evaluateStatements, ih,
      ih ([] ++ toStr (Evaluator.evaluate vars n))]
    simp

theorem evaluateStatements_append (vars : JsMap) (xs ys : List Node) (s : Str) :
    Evaluator.evaluateStatements vars (xs ++ ys) s =
      Evaluator.evaluateStatements vars ys (Evaluator.evaluateStatements vars xs s) := by
  induction xs generalizing s with
  | nil => simp [Evaluator.evaluateStatements]
  | cons n rest ih =>
    rw [List.cons_append, Evaluator.evaluateStatements, Evaluator.evaluateStatements, ih]

theorem evaluateStatements_join (vars : JsMap) (ss : List Node) :
    Evaluator.evaluateStatements vars ss [] =
      List.flatten (ss.map (fun n => toStr (Evaluator.evaluate vars n))) := by
  induction ss with
  | nil => simp [Evaluator.evaluateStatements]
  | cons n rest ih =>
    rw [Evaluator.evaluateStatements, evaluateStatements_acc, ih]
    simp

mutual
/-- The traced evaluator computes the value of `evaluate`. -/
theorem evaluateTraced_fst (vars : JsMap) :
    ∀ n : Node, (evaluateTraced vars n).1 = Evaluator.evaluate vars n
  | Node.tok (Token.source s) => by
    by_cases h : s = [] <;> simp [evaluateTraced, Evaluator.evaluate, h]
  | Node.tok (Token.var name) => by
    by_cases h : name = [] <;> simp [evaluateTraced, Evaluator.evaluate, h]
  | Node.tok (Token.ifTok c) => by
    by_cases h : c = [] <;> simp [evaluateTraced, Evaluator.evaluate, h]
  | Node.tok Token.endif => by
    simp [evaluateTraced, Evaluator.evaluate]
  | Node.lines ss => by
    simp only [evaluateTraced, Evaluator.evaluate]
    rw [evaluateStatementsTraced_fst vars ss ([], false)]
  | Node.ifNode cond lines => by
    by_cases h : Evaluator.evaluateCondition vars cond = true
    · simp only [evaluateTraced, Evaluator.evaluate, h, if_true]
      exact evaluateTraced_fst vars lines
    · simp [evaluateTraced, Evaluator.evaluate, h]
theorem evaluateStatementsTraced_fst (vars : JsMap) :
    ∀ (ss : List Node) (s : Str × Bool),
      (evaluateStatementsTraced vars ss s).1 = Evaluator.evaluateStatements vars ss s.1
  | [], s => by simp [evaluateStatementsTraced, Evaluator.evaluateStatements]
  | n :: rest, s => by
    rw [evaluateStatementsTraced, Evaluator.evaluateStatements,
      evaluateStatementsTraced_fst vars rest, evaluateTraced_fst vars n]
end

theorem evaluateStatementsTraced_snd (vars : JsMap) (ss : List Node) (s : Str × Bool) :
    (evaluateStatementsTraced vars ss s).2 =
      (s.2 || ss.any (fun n => (evaluateTraced vars n).2)) := by
  induction ss generalizing s with
  | nil => simp [evaluateStatementsTraced]
  | cons n rest ih =>
    rw [evaluateStatementsTraced, ih]
    simp [Bool.or_assoc]

/-! ### The error branch of the evaluator on parsed trees -/

theorem evaluateTraced_tok_clean (vars : JsMap) (t : Token) (hc : cleanToken t = true)
    (h : (Parser.seeSource t || Parser.seeVariable t) = true) :
    (evaluateTraced vars (Node.tok t)).2 = false := by
  cases t with
  | source s =>
    have : s ≠ [] := by
      intro e
      simp [cleanToken, e] at hc
    simp [evaluateTraced, this]
  | var v =>
    have : v ≠ [] := by
      intro e
      simp [cleanToken, e] at hc
    simp [evaluateTraced, this]
  | ifTok c => simp [Parser.seeSource, Parser.seeVariable] at h
  | endif => simp [Parser.seeSource, Parser.seeVariable] at h

theorem evaluateTraced_ifNode_clean (vars : JsMap) (cond : Val) (ss : List Node)
    (h : ss.any (fun n => (evaluateTraced vars n).2) = false) :
    (evaluateTraced vars (Node.ifNode cond (Node.lines ss))).2 = false := by
  by_cases hc : Evaluator.evaluateCondition vars cond = true
  · simp only [evaluateTraced, hc, if_true, evaluateStatementsTraced_snd, h]
    rfl
  · simp [evaluateTraced, hc]

/-- On classified tokens with non-empty texts and names, no statement the
parser builds makes `evaluate` reach its error branch. -/
theorem parseLinesLoop_clean (vars : JsMap) (ts : List Token)
    (hts : ∀ t ∈ ts, cleanToken t = true) (fuel : Nat) :
    ∀ (i : Nat) (acc ss : List Node) (j : Nat),
      Parser.parseLinesLoop (ts.map some) fuel i acc = .ok (ss, j) →
      acc.any (fun n => (evaluateTraced vars n).2) = false →
      ss.any (fun n => (evaluateTraced vars n).2) = false := by
  induction fuel with
  | zero => intro i acc ss j h; simp [Parser.parseLinesLoop] at h
  | succ fuel ih =>
    intro i acc ss j h hacc
    rw [Parser.parseLinesLoop] at h
    by_cases hi : i < (ts.map some).length
    · rw [if_pos hi] at h
      have hi' : i < ts.length := by simpa using hi
      obtain ⟨ht, _⟩ := getD_map_some_get ts i hi'
      have hclean := hts _ (List.get_mem ts i hi')
      generalize ts.get ⟨i, hi'⟩ = t at ht hclean
      rw [ht] at h
      simp only at h
      by_cases h1 : (Parser.seeSource t || Parser.seeVariable t) = true
      · rw [if_pos h1] at h
        refine ih _ _ _ _ h ?_
        rw [List.any_append, hacc]
        simp [evaluateTraced_tok_clean vars t hclean h1]
      · rw [if_neg h1] at h
        by_cases h2 : Parser.seeIf t = true
        · rw [if_pos h2] at h
          simp only [Parser.parseIf, Parser.next, ht] at h
          cases hin : Parser.parseLinesLoop (ts.map some) fuel (i + 1) [] with
          | error e => rw [hin] at h; simp at h
          | ok r =>
            obtain ⟨bs, k⟩ := r
            rw [hin] at h
            simp only at h
            have hbs := ih _ _ _ _ hin (by simp)
            refine ih _ _ _ _ h ?_
            rw [List.any_append, hacc]
            simp [evaluateTraced_ifNode_clean vars _ bs hbs]
        · rw [if_neg h2] at h
          simp only [Except.ok.injEq, Prod.mk.injEq] at h
          rw [← h.1]
          exact hacc
    · rw [if_neg hi] at h
      simp only [Except.ok.injEq, Prod.mk.injEq] at h
      rw [← h.1]
      exact hacc

theorem exists_map_some (l : List (Option Token)) (h : none ∉ l) :
    ∃ ts : List Token, l = ts.map some := by
  induction l with
  | nil => exact ⟨[], rfl⟩
  | cons x xs ih =>
    obtain ⟨ts, hts⟩ := ih (fun hm => h (List.mem_cons_of_mem _ hm))
    cases x with
    | none => exact absurd (List.mem_cons_self _ _) h
    | some t => exact ⟨t :: ts, by rw [hts]; rfl⟩

/-! ### The classified tokens of a source -/

theorem varRe_sound (x : Str) (n : Nat) (cap : Str)
    (h : matchHere Scanner.varRe x = some (n, cap)) : cap ≠ [] := by
  have h' : matchHere (lits openB ++
      (Piece.capPlus (fun c => c != rbrace && !isSpace c) :: lits closeB)) x = some (n, cap) := h
  obtain ⟨x', hx'⟩ := matchHere_lits_sound _ _ _ _ h'
  subst hx'
  rw [matchHere_lits_append] at h'
  cases hm : matchHere (Piece.capPlus (fun c => c != rbrace && !isSpace c) :: lits closeB) x' with
  | none => rw [hm] at h'; simp at h'
  | some r =>
    obtain ⟨n1, c1⟩ := r
    rw [hm] at h'
    simp only [Option.some.injEq, Prod.mk.injEq] at h'
    obtain ⟨_, _, h2, _, _⟩ := capPlus_closeB_sound _ _ _ _ hm
    rw [← h'.2]
    exact h2

theorem parameterize1_source (t s : Str) (h : Scanner.parameterize1 t = some (Token.source s)) :
    s = t := by
  unfold Scanner.parameterize1 at h
  split at h
  · simp only [Option.some.injEq, Token.source.injEq] at h
    exact h.symm
  · cases h1 : exec Scanner.ifRe t 0 with
    | some m => rw [h1] at h; simp at h
    | none =>
      rw [h1] at h
      simp only at h
      cases h2 : exec Scanner.endifRe t 0 with
      | some m => rw [h2] at h; simp at h
      | none =>
        rw [h2] at h
        simp only at h
        cases h3 : exec Scanner.varRe t 0 with
        | some m => rw [h3] at h; simp at h
        | none => rw [h3] at h; simp at h

theorem parameterize1_varTok (t n : Str) (h : Scanner.parameterize1 t = some (Token.var n)) :
    n ≠ [] := by
  unfold Scanner.parameterize1 at h
  split at h
  · simp at h
  · cases h1 : exec Scanner.ifRe t 0 with
    | some m => rw [h1] at h; simp at h
    | none =>
      rw [h1] at h
      simp only at h
      cases h2 : exec Scanner.endifRe t 0 with
      | some m => rw [h2] at h; simp at h
      | none =>
        rw [h2] at h
        simp only at h
        cases h3 : exec Scanner.varRe t 0 with
        | none => rw [h3] at h; simp at h
        | some m =>
          rw [h3] at h
          simp only [Option.some.injEq, Token.var.injEq] at h
          rw [exec] at h3
          obtain ⟨d, _, _, hm⟩ := search_sound _ _ _ _ h3
          rw [← h]
          exact varRe_sound _ _ _ hm

theorem parameterize1_clean (t : Str) (ht : (t.length != 0) = true) (tok : Token)
    (h : Scanner.parameterize1 t = some tok) : cleanToken tok = true := by
  cases tok with
  | source s =>
    rw [parameterize1_source t s h]
    exact ht
  | var n =>
    have := parameterize1_varTok t n h
    cases n with
    | nil => exact absurd rfl this
    | cons c cs => simp [cleanToken]
  | ifTok c => rfl
  | endif => rfl

/-- Every classified token of a source has a non-empty text or name. -/
theorem tokenize_clean (source : Str) (tokens : List (Option Token))
    (h : Scanner.tokenize source = .ok tokens) :
    ∀ tok, some tok ∈ tokens → cleanToken tok = true := by
  obtain ⟨raw, hraw⟩ := tokenize_total source
  rw [hraw] at h
  simp only [Except.ok.injEq] at h
  intro tok hmem
  rw [← h] at hmem
  obtain ⟨t, ht, hp⟩ := List.mem_map.mp hmem
  exact parameterize1_clean t (List.mem_filter.mp ht).2 tok hp

/-! ### The tokenizer on the wire format -/

theorem unparse1_text (t : Token) (h : isText t = true) : ∃ s, t = Token.source s := by
  cases t with
  | source s => exact ⟨s, rfl⟩
  | var n => simp [isText] at h
  | ifTok c => simp [isText] at h
  | endif => simp [isText] at h

/-- A marker token in normal form is `{{body}}` with a non-empty body without
opening brace. -/
theorem unparse1_marker (t : Token) (hn : NormalToken t) (h : isText t = false) :
    ∃ body, unparse1 t = openB ++ (body ++ closeB) ∧ body ≠ [] ∧ lbrace ∉ body := by
  cases t with
  | source s => simp [isText] at h
  | var n => exact ⟨n, rfl, hn.1.1, hn.1.2.2.1⟩
  | ifTok c =>
    refine ⟨['i', 'f', ' '] ++ c, by simp [unparse1], by simp, ?_⟩
    simp only [List.mem_append, not_or]
    exact ⟨by decide, hn.2.1.1⟩
  | endif => exact ⟨['e', 'n', 'd', 'i', 'f'], rfl, by simp, by decide⟩

theorem normal_tail (t : Token) (ts : List Token) (h : Normal (t :: ts)) : Normal ts :=
  ⟨fun x hx => h.1 x (List.mem_cons_of_mem _ hx), h.2.tail⟩

/-- Up to its first opening brace the text of a normal token list holds no
closing brace. -/
theorem unparse_takeWhile (ts : List Token) (h : Normal ts) :
    rbrace ∉ (unparse ts).takeWhile (fun c => c != lbrace) := by
  cases ts with
  | nil => simp [unparse]
  | cons t ts' =>
    cases ht : isText t with
    | false =>
      obtain ⟨body, hb, _, _⟩ := unparse1_marker t (h.1 t (by simp)) ht
      rw [unparse, hb]
      have := not_mem_takeWhile_open rbrace [] (body ++ closeB ++ unparse ts') (by simp)
      simpa [List.append_assoc] using this
    | true =>
      obtain ⟨s, rfl⟩ := unparse1_text t ht
      have hs : rbrace ∉ s := (h.1 (Token.source s) (by simp)).2.2
      cases ts' with
      | nil =>
        rw [unparse, unparse, List.append_nil]
        exact not_mem_takeWhile _ _ _ hs
      | cons t2 ts'' =>
        have hc := h.2
        rw [List.chain'_cons] at hc
        have ht2 : isText t2 = false := by
          cases h2 : isText t2 with
          | false => rfl
          | true => exact absurd ⟨rfl, h2⟩ hc.1
        obtain ⟨body, hb, _, _⟩ := unparse1_marker t2 (h.1 t2 (by simp)) ht2
        rw [unparse, unparse, hb]
        have := not_mem_takeWhile_open rbrace s (body ++ closeB ++ unparse ts'') hs
        simpa [unparse1, List.append_assoc] using this

/-- The marker pattern matches a normal marker token that is followed by the
text of a normal token list. -/
theorem matchHere_re_unparse (t : Token) (ts : List Token) (hn : NormalToken t)
    (h : isText t = false) (hts : Normal ts) :
    ∃ cap, matchHere Scanner.re (unparse1 t ++ unparse ts) = some ((unparse1 t).length, cap) := by
  obtain ⟨body, hb, hb0, hbl⟩ := unparse1_marker t hn h
  rw [hb]
  exact ⟨body, matchHere_re_marker body (unparse ts) hb0 hbl (unparse_takeWhile ts hts)⟩

theorem unparse1_length (t : Token) (hn : NormalToken t) : ((unparse1 t).length != 0) = true := by
  cases t with
  | source s =>
    have : s ≠ [] := hn.1
    cases s with
    | nil => exact absurd rfl this
    | cons c cs => simp [unparse1]
  | var n => simp [unparse1, openB]
  | ifTok c => simp [unparse1, openB]
  | endif => simp [unparse1, openB]

/-- Raw tokens of the text of a normal token list: up to empty strings, the
texts of the tokens. -/
theorem tokenizeLoop_unparse (n : Nat) :
    ∀ (ts : List Token), ts.length ≤ n → Normal ts →
      ∀ (txt pre : Str) (acc : List Str) (fuel : Nat), txt = pre ++ unparse ts →
        ts.length < fuel →
        ∃ raw, Scanner.tokenizeLoop txt fuel pre.length acc = .ok (acc ++ raw) ∧
          raw.filter (fun t => t.length != 0) = ts.map unparse1 := by
  induction n with
  | zero =>
    intro ts hlen _ txt pre acc fuel htxt hf
    have : ts = [] := List.length_eq_zero.mp (by omega)
    subst this
    obtain ⟨f, rfl⟩ : ∃ f, fuel = f + 1 := ⟨fuel - 1, by simp at hf; omega⟩
    exact ⟨[[]], tokenizeLoop_rest txt pre [] f _ acc (by simpa [unparse] using htxt) rfl
      (by simp), by simp⟩
  | succ n ih =>
    intro ts hlen hnorm txt pre acc fuel htxt hf
    obtain ⟨f, rfl⟩ : ∃ f, fuel = f + 1 := ⟨fuel - 1, by omega⟩
    cases ts with
    | nil =>
      exact ⟨[[]], tokenizeLoop_rest txt pre [] f _ acc (by simpa [unparse] using htxt) rfl
        (by simp), by simp⟩
    | cons t ts' =>
      have hnt : NormalToken t := hnorm.1 t (by simp)
      have hnorm' := normal_tail t ts' hnorm
      simp only [List.length_cons] at hlen hf
      cases ht : isText t with
      | false =>
        obtain ⟨cap, hm⟩ := matchHere_re_unparse t ts' hnt ht hnorm'
        have hstep := tokenizeLoop_marker txt pre [] (unparse1 t) (unparse ts') cap f
          pre.length acc (by simpa [unparse] using htxt) rfl (by simp) hm
        obtain ⟨raw, hraw, hfil⟩ := ih ts' (by omega) hnorm' txt (pre ++ unparse1 t)
          (acc ++ [[], unparse1 t]) f (by simpa [unparse] using htxt) (by omega)
        refine ⟨[[], unparse1 t] ++ raw, ?_, ?_⟩
        · rw [hstep]
          simp only [List.length_nil, Nat.add_zero, List.length_append] at hraw ⊢
          rw [hraw, List.append_assoc]
        · rw [List.filter_append, hfil]
          simp [List.filter, unparse1_length t hnt]
      | true =>
        obtain ⟨s, rfl⟩ := unparse1_text t ht
        have hsl : lbrace ∉ s := hnt.2.1
        cases ts' with
        | nil =>
          refine ⟨[s], tokenizeLoop_rest txt pre s f _ acc (by simpa [unparse, unparse1] using htxt)
            rfl hsl, ?_⟩
          have := unparse1_length _ hnt
          simp only [unparse1] at this
          simp [List.filter, this, unparse1]
        | cons t2 ts'' =>
          have hc := hnorm.2
          rw [List.chain'_cons] at hc
          have ht2 : isText t2 = false := by
            cases h2 : isText t2 with
            | false => rfl
            | true => exact absurd ⟨rfl, h2⟩ hc.1
          have hnt2 : NormalToken t2 := hnorm.1 t2 (by simp)
          have hnorm'' := normal_tail t2 ts'' hnorm'
          simp only [List.length_cons] at hlen hf
          obtain ⟨cap, hm⟩ := matchHere_re_unparse t2 ts'' hnt2 ht2 hnorm''
          obtain ⟨g, rfl⟩ : ∃ g, f = g + 1 := ⟨f - 1, by omega⟩
          have hstep := tokenizeLoop_marker txt pre s (unparse1 t2) (unparse ts'') cap (g + 1)
            pre.length acc (by simpa [unparse, unparse1] using htxt) rfl hsl hm
          obtain ⟨raw, hraw, hfil⟩ := ih ts'' (by omega) hnorm'' txt (pre ++ s ++ unparse1 t2)
            (acc ++ [s, unparse1 t2]) (g + 1) (by simpa [unparse, unparse1] using htxt)
            (by omega)
          refine ⟨[s, unparse1 t2] ++ raw, ?_, ?_⟩
          · rw [hstep]
            simp only [List.length_append] at hraw ⊢
            rw [hraw, List.append_assoc]
          · rw [List.filter_append, hfil]
            have h1 := unparse1_length _ hnt
            have hsrc : unparse1 (Token.source s) = s := rfl
            rw [hsrc] at h1
            simp [List.filter, h1, unparse1_length t2 hnt2, hsrc]

/-- The result of `tokenize` from the raw tokens of the loop, whatever the
fuel they were computed with. -/
theorem tokenize_of_raw (txt : Str) (fuel : Nat) (raw : List Str)
    (h : Scanner.tokenizeLoop txt fuel 0 [] = .ok raw) :
    Scanner.tokenize txt =
      .ok ((raw.filter (fun t => t.length != 0)).map Scanner.parameterize1) := by
  obtain ⟨r, hr⟩ := tokenizeLoop_total txt (txt.length + 1) 0 [] (by omega) (by omega)
  have hrr : r = raw := by
    rcases Nat.le_total fuel (txt.length + 1) with hle | hle
    · have := tokenizeLoop_mono _ _ _ _ _ _ h hle
      rw [hr] at this
      simpa using this
    · have := tokenizeLoop_mono _ _ _ _ _ _ hr hle
      rw [h] at this
      simpa using this.symm
  rw [← hrr]
  exact tokenize_of_loop txt _ r hr (Nat.le_refl _)

theorem parameterize1_unparse1 (t : Token) (h : NormalToken t) :
    Scanner.parameterize1 (unparse1 t) = some t := by
  cases t with
  | source s => exact parameterize1_text s (not_openB_of_not_mem s h.2.1)
  | var n =>
    obtain ⟨⟨hn0, hns, hnl, hnr⟩, hne⟩ := h
    exact parameterize1_var n hn0 hnl hnr hns (by rw [← endif_toList]; exact hne)
  | ifTok c => exact parameterize1_if c h.1 h.2.1.2 h.2.2
  | endif => exact parameterize1_endif

/-- Tokenizing the text of a normal token list gives the list back. -/
theorem tokenize_unparse (ts : List Token) (h : Normal ts) :
    Scanner.tokenize (unparse ts) = .ok (ts.map some) := by
  obtain ⟨raw, hraw, hfil⟩ := tokenizeLoop_unparse ts.length ts (Nat.le_refl _) h
    (unparse ts) [] [] (ts.length + 1) rfl (by omega)
  rw [tokenize_of_raw _ _ _ (by simpa using hraw), hfil, List.map_map]
  congr 1
  apply List.map_congr_left
  intro t ht
  exact parameterize1_unparse1 t (h.1 t ht)

theorem not_openB_drop (s : Str) (h : ¬ openB <:+: s) (d : Nat) :
    openB.isPrefixOf (s.drop d) = false := by
  cases hp : openB.isPrefixOf (s.drop d) with
  | false => rfl
  | true =>
    exfalso
    obtain ⟨r, hr⟩ := List.isPrefixOf_iff_prefix.mp hp
    exact h ⟨s.take d, r, by rw [List.append_assoc, hr, List.take_append_drop]⟩

/-- Tokens of a source in which the marker search finds nothing. -/
theorem tokenize_no_match (s : Str) (h : exec Scanner.re s 0 = none) :
    Scanner.tokenize s =
      .ok (([s].filter (fun t => t.length != 0)).map Scanner.parameterize1) := by
  have hraw : Scanner.tokenizeLoop s 1 0 [] = .ok [s] := by
    rw [Scanner.tokenizeLoop, h]
    simp [substr]
  exact tokenize_of_raw s 1 [s] hraw

theorem tokenize_literal (s : Str) (h : ¬ openB <:+: s) :
    Scanner.tokenize s = .ok (if s = [] then [] else [some (Token.source s)]) := by
  have he : exec Scanner.re s 0 = none := by
    rw [exec, List.drop_zero]
    exact search_none _ needsOpen_re s 0 (not_openB_drop s h)
  rw [tokenize_no_match s he]
  have hT := parameterize1_text s (by simpa using not_openB_drop s h 0)
  cases s with
  | nil => rfl
  | cons c cs => simp [List.filter, hT]

/-! ### The tokens a parse consumes -/

mutual
/-- The tokens of a statement of the grammar do not change the nesting depth. -/
theorem balancedFrom_flatten :
    ∀ (n : Node), isStatement n = true → ∀ (d : Nat) (rest : List Token),
      balancedFrom d (flatten n ++ rest) = balancedFrom d rest
  | Node.tok (Token.source s), _, d, rest => by simp [flatten, balancedFrom]
  | Node.tok (Token.var v), _, d, rest => by simp [flatten, balancedFrom]
  | Node.tok (Token.ifTok c), h, _, _ => by simp [isStatement] at h
  | Node.tok Token.endif, h, _, _ => by simp [isStatement] at h
  | Node.lines ss, h, _, _ => by simp [isStatement] at h
  | Node.ifNode none body, h, _, _ => by simp [isStatement] at h
  | Node.ifNode (some c) (Node.tok t), h, _, _ => by simp [isStatement, isBlock] at h
  | Node.ifNode (some c) (Node.ifNode c2 b2), h, _, _ => by simp [isStatement, isBlock] at h
  | Node.ifNode (some c) (Node.lines bs), h, d, rest => by
    have hbs : allStatements bs = true := by simpa [isStatement, isBlock] using h
    have := balancedFrom_flattenList bs hbs (d + 1) (Token.endif :: rest)
    simp only [flatten, List.cons_append, List.append_assoc, List.singleton_append, balancedFrom,
      List.nil_append]
    rw [this]
    simp [balancedFrom]
/-- The tokens of a list of statements do not change the nesting depth. -/
theorem balancedFrom_flattenList :
    ∀ (ss : List Node), allStatements ss = true → ∀ (d : Nat) (rest : List Token),
      balancedFrom d (flattenList ss ++ rest) = balancedFrom d rest
  | [], _, d, rest => by simp [flattenList]
  | n :: ss, h, d, rest => by
    simp only [allStatements, Bool.and_eq_true] at h
    rw [flattenList, List.append_assoc, balancedFrom_flatten n h.1,
      balancedFrom_flattenList ss h.2]
end

/-- The tokens of a list of statements are balanced. -/
theorem balanced_flattenList (ss : List Node) (h : allStatements ss = true) :
    Balanced (flattenList ss) := by
  have := balancedFrom_flattenList ss h 0 []
  rw [List.append_nil] at this
  rw [Balanced, this]
  rfl

theorem drop_eq_cons_get (ts : List Token) (i : Nat) (h : i < ts.length) :
    ts.drop i = ts.get ⟨i, h⟩ :: ts.drop (i + 1) :=
  List.drop_eq_getElem_cons h

theorem replicate_mid (e : Token) (a b : Nat) :
    List.replicate a e ++ e :: List.replicate b e = List.replicate (a + 1 + b) e := by
  rw [List.replicate_add, List.replicate_add]
  simp

/-- What the loop of `parseLines` consumes on classified tokens: the new
statements are statements of the grammar; when the loop stops on an `endif`,
their tokens are exactly the tokens between the start and that `endif`; when
it runs past the end, their tokens are the rest of the input followed by the
`endif` tokens that were missing. -/
theorem parseLinesLoop_consumes (ts : List Token) (fuel : Nat) :
    ∀ (i : Nat) (acc ss : List Node) (j : Nat),
      Parser.parseLinesLoop (ts.map some) fuel i acc = .ok (ss, j) →
      ∃ new, ss = acc ++ new ∧ allStatements new = true ∧ i ≤ j ∧
        ((j < ts.length ∧ ts[j]? = some Token.endif ∧
            ts.drop i = flattenList new ++ ts.drop j) ∨
          (ts.length ≤ j ∧
            ∃ k, flattenList new = ts.drop i ++ List.replicate k Token.endif ∧
              j = max i ts.length + k)) := by
  induction fuel with
  | zero => intro i acc ss j h; simp [Parser.parseLinesLoop] at h
  | succ fuel ih =>
    intro i acc ss j h
    rw [Parser.parseLinesLoop] at h
    by_cases hi : i < (ts.map some).length
    · rw [if_pos hi] at h
      have hi' : i < ts.length := by simpa using hi
      obtain ⟨ht, hget⟩ := getD_map_some_get ts i hi'
      have hdrop := drop_eq_cons_get ts i hi'
      generalize ts.get ⟨i, hi'⟩ = t at ht hget hdrop
      rw [ht] at h
      simp only at h
      by_cases h1 : (Parser.seeSource t || Parser.seeVariable t) = true
      · rw [if_pos h1] at h
        simp only [Parser.next] at h
        obtain ⟨new2, hss, hall, hle, hcase⟩ := ih _ _ _ _ h
        have hst : isStatement (Node.tok t) = true := by
          cases t with
          | source s => rfl
          | var v => rfl
          | ifTok c => simp [Parser.seeSource, Parser.seeVariable] at h1
          | endif => simp [Parser.seeSource, Parser.seeVariable] at h1
        refine ⟨Node.tok t :: new2, by rw [hss]; simp, by simp [allStatements, hst, hall],
          by omega, ?_⟩
        rcases hcase with ⟨hj, hend, hd⟩ | ⟨hj, k, hk, hjk⟩
        · exact Or.inl ⟨hj, hend, by rw [hdrop, hd]; simp [flattenList, flatten]⟩
        · exact Or.inr ⟨hj, k, by rw [hdrop]; simp [flattenList, flatten, hk], by omega⟩
      · rw [if_neg h1] at h
        by_cases h2 : Parser.seeIf t = true
        · rw [if_pos h2] at h
          simp only [Parser.parseIf, Parser.next, ht] at h
          cases hin : Parser.parseLinesLoop (ts.map some) fuel (i + 1) [] with
          | error e => rw [hin] at h; simp at h
          | ok r =>
            obtain ⟨bs', j1⟩ := r
            rw [hin] at h
            simp only at h
            obtain ⟨bs, hbs', hbsall, hle1, hcase1⟩ := ih _ _ _ _ hin
            rw [List.nil_append] at hbs'
            subst hbs'
            obtain ⟨new2, hss, hall, hle2, hcase2⟩ := ih _ _ _ _ h
            obtain ⟨c, rfl⟩ : ∃ c, t = Token.ifTok c := by
              cases t with
              | ifTok c => exact ⟨c, rfl⟩
              | source s => simp [Parser.seeIf] at h2
              | var v => simp [Parser.seeIf] at h2
              | endif => simp [Parser.seeIf] at h2
            have hst : isStatement (Node.ifNode (some c) (Node.lines bs')) = true := by
              simpa [isStatement, isBlock] using hbsall
            refine ⟨Node.ifNode (some c) (Node.lines bs') :: new2,
              by rw [hss]; simp [Token.ifField], by simp [allStatements, hst, hall],
              by omega, ?_⟩
            rcases hcase1 with ⟨hj1, hend1, hd1⟩ | ⟨hj1, k1, hk1, hjk1⟩
            · have hd1' : ts.drop (i + 1) =
                  flattenList bs' ++ (Token.endif :: ts.drop (j1 + 1)) := by
                rw [hd1, drop_eq_cons_get ts j1 hj1]
                have : ts.get ⟨j1, hj1⟩ = Token.endif := by
                  have := (getD_map_some_get ts j1 hj1).2
                  rw [hend1] at this
                  simpa using this.symm
                rw [this]
              rcases hcase2 with ⟨hj, hend, hd⟩ | ⟨hj, k, hk, hjk⟩
              · exact Or.inl ⟨hj, hend, by
                  rw [hdrop, hd1', hd]; simp [flattenList, flatten]⟩
              · exact Or.inr ⟨hj, k, by
                  rw [hdrop, hd1']; simp [flattenList, flatten, hk], by omega⟩
            · have hnil : ts.drop (j1 + 1) = [] := List.drop_eq_nil_of_le (by omega)
              rcases hcase2 with ⟨hj, _, _⟩ | ⟨hj, k, hk, hjk⟩
              · omega
              · refine Or.inr ⟨hj, k1 + 1 + k, ?_, by omega⟩
                rw [hnil, List.nil_append] at hk
                rw [hdrop]
                simp only [flattenList, flatten, hk1, hk, List.cons_append, List.append_assoc,
                  List.singleton_append, List.nil_append, replicate_mid]
        · rw [if_neg h2] at h
          simp only [Except.ok.injEq, Prod.mk.injEq] at h
          obtain ⟨h3, h4⟩ := h
          subst h3
          subst h4
          have hte : t = Token.endif := by
            cases t with
            | endif => rfl
            | source s => simp [Parser.seeSource] at h1
            | var v => simp [Parser.seeVariable] at h1
            | ifTok c => simp [Parser.seeIf] at h2
          refine ⟨[], by simp, rfl, Nat.le_refl _, Or.inl ⟨hi', ?_, by simp [flattenList]⟩⟩
          rw [hget, hte]
    · rw [if_neg hi] at h
      simp only [Except.ok.injEq, Prod.mk.injEq] at h
      obtain ⟨h3, h4⟩ := h
      subst h3
      subst h4
      have hi' : ts.length ≤ i := by simpa using hi
      exact ⟨[], by simp, rfl, Nat.le_refl _,
        Or.inr ⟨hi', 0, by simp [flattenList, List.drop_eq_nil_of_le hi'], by omega⟩⟩

/-! ### Where a condition comes from -/

/-- A match of the `if` pattern is `{{if`, a non-empty run of whitespace, the
captured condition and `}}`. -/
theorem ifRe_shape (x : Str) (n : Nat) (c : Str)
    (h : matchHere Scanner.ifRe x = some (n, c)) :
    ∃ ws rest, x = openB ++ (['i', 'f'] ++ (ws ++ (c ++ (closeB ++ rest)))) ∧ ws ≠ [] ∧
      ∀ y ∈ ws, isSpace y = true := by
  have h' : matchHere (lits (openB ++ ['i', 'f']) ++
      (Piece.plus isSpace :: Piece.capPlus (fun c => c != rbrace) :: lits closeB)) x =
      some (n, c) := h
  obtain ⟨x', hx'⟩ := matchHere_lits_sound _ _ _ _ h'
  subst hx'
  rw [matchHere_lits_append, matchHere_plus] at h'
  cases hg : greedy (matchHere (Piece.capPlus (fun c => c != rbrace) :: lits closeB)) x'
      (x'.takeWhile isSpace).length with
  | none => rw [hg] at h'; simp at h'
  | some r =>
    obtain ⟨k1, n1, c1⟩ := r
    rw [hg] at h'
    simp only [Option.some.injEq, Prod.mk.injEq] at h'
    obtain ⟨_, hc⟩ := h'
    subst hc
    obtain ⟨hk1, hk2, hmatch, _⟩ := greedy_sound _ _ _ _ _ hg
    obtain ⟨rest, hsplit, _, _, _⟩ := capPlus_closeB_sound _ _ _ _ hmatch
    have hlen : k1 ≤ x'.length := le_trans hk2 (List.takeWhile_sublist isSpace).length_le
    refine ⟨x'.take k1, rest, ?_, ?_, mem_take_takeWhile isSpace x' k1 hk2⟩
    · rw [← hsplit, List.take_append_drop]
      simp [openB]
    · intro e
      have := congrArg List.length e
      simp only [List.length_take, List.length_nil] at this
      omega

theorem substr_piece (txt : Str) (a b : Nat) : substr txt a b <:+: txt :=
  List.IsInfix.trans (List.take_prefix b (txt.drop a)).isInfix (List.drop_suffix a txt).isInfix

/-- Every raw token the scanning loop adds is a piece of the source. -/
theorem tokenizeLoop_pieces (txt : Str) (fuel : Nat) :
    ∀ (lastCut : Nat) (acc r : List Str), Scanner.tokenizeLoop txt fuel lastCut acc = .ok r →
      ∀ t ∈ r, t ∈ acc ∨ t <:+: txt := by
  induction fuel with
  | zero => intro lastCut acc r h; simp [Scanner.tokenizeLoop] at h
  | succ fuel ih =>
    intro lastCut acc r h t ht
    rw [Scanner.tokenizeLoop] at h
    cases he : exec Scanner.re txt lastCut with
    | none =>
      rw [he] at h
      simp only [Except.ok.injEq] at h
      rw [← h] at ht
      rcases List.mem_append.mp ht with h1 | h1
      · exact Or.inl h1
      · rw [List.mem_singleton] at h1
        rw [h1]
        exact Or.inr (substr_piece _ _ _)
    | some m =>
      rw [he] at h
      simp only at h
      rcases ih _ _ _ h t ht with h1 | h1
      · rcases List.mem_append.mp h1 with h2 | h2
        · exact Or.inl h2
        · simp only [List.mem_cons, List.mem_singleton, List.not_mem_nil, or_false] at h2
          rcases h2 with rfl | rfl
          · exact Or.inr (substr_piece _ _ _)
          · exact Or.inr (substr_piece _ _ _)
      · exact Or.inr h1

/-- The condition of an `if` token is cut from the source: the source holds
`{{if`, a non-empty run of whitespace, the condition and `}}` in a row. -/
theorem tokenize_ifTok_source (source : Str) (tokens : List (Option Token)) (c : Str)
    (h : Scanner.tokenize source = .ok tokens) (hc : some (Token.ifTok c) ∈ tokens) :
    ∃ a b ws, source = a ++ openB ++ "if".toList ++ ws ++ c ++ closeB ++ b ∧ ws ≠ [] ∧
      ∀ y ∈ ws, isSpace y = true := by
  obtain ⟨raw, hloop⟩ := tokenizeLoop_total source (source.length + 1) 0 [] (by omega) (by omega)
  rw [tokenize_of_loop source _ raw hloop (Nat.le_refl _)] at h
  simp only [Except.ok.injEq] at h
  rw [← h] at hc
  obtain ⟨t, ht, hp⟩ := List.mem_map.mp hc
  have htraw : t ∈ raw := (List.mem_filter.mp ht).1
  have hinf : t <:+: source := by
    rcases tokenizeLoop_pieces source _ _ _ _ hloop t htraw with h1 | h1
    · simp at h1
    · exact h1
  obtain ⟨m, hm, hg⟩ := parameterize1_ifTok t c hp
  rw [exec] at hm
  obtain ⟨d, _, _, hmatch⟩ := search_sound _ _ _ _ hm
  rw [hg] at hmatch
  obtain ⟨ws, rest, hx, hws, hsp⟩ := ifRe_shape _ _ _ hmatch
  obtain ⟨p, q, hpq⟩ := hinf
  refine ⟨p ++ t.take d, rest ++ q, ws, ?_, hws, hsp⟩
  have ht' : t = t.take d ++ (openB ++ (['i', 'f'] ++ (ws ++ (c ++ (closeB ++ rest))))) := by
    rw [← hx]
    simp
  rw [← hpq]
  conv_lhs => rw [ht']
  have : "if".toList = ['i', 'f'] := rfl
  rw [this]
  simp [List.append_assoc]

/-! # The claims -/

/-- C1: variable substitution.  For texts `p`, `q` without brace characters, a
variable name `n` (non-empty, no whitespace, no brace, not `endif`) that the
local mapping binds to the string `v` and the global mapping does not contain,
rendering `p ++ "{{" ++ n ++ "}}" ++ q` returns `p ++ v ++ q`. -/
theorem C1_variable_substitution (p q n v : Str) (L G : Obj) (hp : NoBraces p)
    (hq : NoBraces q) (hn : ValidName n) (hL : Obj.read L n = some v)
    (hG : Obj.hasKey G n = false) :
    render (p ++ openB ++ n ++ closeB ++ q) L G = .ok (some (p ++ v ++ q)) := by
  rw [render_var p q n L G hp hq hn, get_mkVariables, hG]
  simp [hL, toStr]

/-- C1, witness: `render("Hi {{name}}!", {name: "Ada"}, {}) = "Hi Ada!"`. -/
theorem C1_variable_substitution_witness :
    render "Hi \x7b\x7bname\x7d\x7d!".toList [("name".toList, some "Ada".toList)] [] =
      .ok (some "Hi Ada!".toList) :=
  C1_variable_substitution "Hi ".toList "!".toList "name".toList "Ada".toList
    [("name".toList, some "Ada".toList)] [] (by decide) (by decide) (by decide) (by rfl)
    (by rfl)

/-- C2: conditional truth is key presence.  For a condition name `c`
(non-empty, no whitespace, no brace) and a text `t` without brace characters,
`"{{if " ++ c ++ "}}" ++ t ++ "{{endif}}"` renders as `t` when `c` is a key of
the local or of the global mapping, whatever its value, and as the empty
string when it is a key of neither. -/
theorem C2_conditional_presence (c t : Str) (L G : Obj) (hc : ValidCond c) (ht : NoBraces t) :
    ((Obj.hasKey L c = true ∨ Obj.hasKey G c = true) →
      render (openB ++ "if ".toList ++ c ++ closeB ++ t ++ openB ++ "endif".toList ++ closeB)
        L G = .ok (some t)) ∧
    ((Obj.hasKey L c = false ∧ Obj.hasKey G c = false) →
      render (openB ++ "if ".toList ++ c ++ closeB ++ t ++ openB ++ "endif".toList ++ closeB)
        L G = .ok (some [])) := by
  constructor
  · intro h
    rw [render_if c t L G hc ht]
    rcases h with h | h <;> simp [h]
  · intro h
    rw [render_if c t L G hc ht]
    simp [h.1, h.2]

/-- C2, witness: `{{if flag}}yes{{endif}}` gives `yes` with `{flag: ""}` and
the empty string with `{}`. -/
theorem C2_conditional_presence_witness :
    render "\x7b\x7bif flag\x7d\x7dyes\x7b\x7bendif\x7d\x7d".toList
        [("flag".toList, some [])] [] = .ok (some "yes".toList) ∧
    render "\x7b\x7bif flag\x7d\x7dyes\x7b\x7bendif\x7d\x7d".toList [] [] = .ok (some []) :=
  ⟨(C2_conditional_presence "flag".toList "yes".toList [("flag".toList, some [])] []
      (by decide) (by decide)).1 (Or.inl (by rfl)),
   (C2_conditional_presence "flag".toList "yes".toList [] []
      (by decide) (by decide)).2 ⟨by rfl, by rfl⟩⟩

/-- C3: global override precedence.  When the local mapping binds `n` to `a`
and the global mapping binds `n` to `b`, the environment built by the
constructor binds `n` to `b`, and for a valid variable name `n` the template
`"{{" ++ n ++ "}}"` renders as `b`. -/
theorem C3_global_override (n a b : Str) (L G : Obj) (_hL : Obj.read L n = some a)
    (hG : Obj.read G n = some b) :
    JsMap.get (Evaluator.mkVariables L G) n = some b ∧
    (ValidName n → render (openB ++ n ++ closeB) L G = .ok (some b)) := by
  have hget : JsMap.get (Evaluator.mkVariables L G) n = some b := by
    rw [get_mkVariables, hasKey_of_read G n b hG]
    simp [hG]
  refine ⟨hget, fun hn => ?_⟩
  have := render_var [] [] n L G (by decide) (by decide) hn
  simp only [List.nil_append, List.append_nil] at this
  rw [this, hget]
  rfl

/-- C3, witness: `render("{{x}}", {x: "local"}, {x: "global"}) = "global"`. -/
theorem C3_global_override_witness :
    render "\x7b\x7bx\x7d\x7d".toList [("x".toList, some "local".toList)]
      [("x".toList, some "global".toList)] = .ok (some "global".toList) :=
  (C3_global_override "x".toList "local".toList "global".toList
    [("x".toList, some "local".toList)] [("x".toList, some "global".toList)]
    (by rfl) (by rfl)).2 (by decide)

/-- C4, counterexample: `render("{{missing}}", {}, {})` is the text
`undefined`, not the empty string. -/
theorem C4_counterexample :
    ValidName "missing".toList ∧
    render ([] ++ openB ++ "missing".toList ++ closeB ++ []) [] [] =
      .ok (some "undefined".toList) ∧
    render ([] ++ openB ++ "missing".toList ++ closeB ++ []) [] [] ≠ .ok (some ([] ++ [])) := by
  refine ⟨by decide, by rfl, ?_⟩
  have h : render ([] ++ openB ++ "missing".toList ++ closeB ++ []) [] [] =
      .ok (some "undefined".toList) := by rfl
  rw [h]
  intro e
  cases e

/-- C4 (amended): unbound-variable degradation.  For a valid variable name `n`
that is a key of neither mapping and texts `p`, `q` without brace characters,
rendering `p ++ "{{" ++ n ++ "}}" ++ q` returns normally, and the unbound
variable contributes the text `undefined`: the result is
`p ++ "undefined" ++ q`. -/
theorem C4_unbound_variable (p q n : Str) (L G : Obj) (hp : NoBraces p) (hq : NoBraces q)
    (hn : ValidName n) (hL : Obj.hasKey L n = false) (hG : Obj.hasKey G n = false) :
    render (p ++ openB ++ n ++ closeB ++ q) L G =
      .ok (some (p ++ "undefined".toList ++ q)) := by
  rw [render_var p q n L G hp hq hn, get_mkVariables, hG, Obj.read_of_not_hasKey L n hL]
  rfl

/-- C4 (amended), witness: `render("a{{missing}}b", {}, {}) = "aundefinedb"`. -/
theorem C4_unbound_variable_witness :
    render "a\x7b\x7bmissing\x7d\x7db".toList [] [] = .ok (some "aundefinedb".toList) :=
  C4_unbound_variable "a".toList "b".toList "missing".toList [] []
    (by decide) (by decide) (by decide) (by rfl) (by rfl)

/-- C5: nested conditionals.  For condition names `a`, `b` (non-empty, no
whitespace, no brace) and a text `t` without brace characters,
`"{{if a}}{{if b}}" ++ t ++ "{{endif}}{{endif}}"` renders as `t` when both
names are keys of the merged environment and as the empty string when at least
one of them is not. -/
theorem C5_nested_conditionals (a b t : Str) (L G : Obj) (ha : ValidCond a)
    (hb : ValidCond b) (ht : NoBraces t) :
    ((JsMap.has (Evaluator.mkVariables L G) a = true ∧
        JsMap.has (Evaluator.mkVariables L G) b = true) →
      render (openB ++ "if ".toList ++ a ++ closeB ++ openB ++ "if ".toList ++ b ++ closeB ++
        t ++ openB ++ "endif".toList ++ closeB ++ openB ++ "endif".toList ++ closeB) L G =
        .ok (some t)) ∧
    ((JsMap.has (Evaluator.mkVariables L G) a = false ∨
        JsMap.has (Evaluator.mkVariables L G) b = false) →
      render (openB ++ "if ".toList ++ a ++ closeB ++ openB ++ "if ".toList ++ b ++ closeB ++
        t ++ openB ++ "endif".toList ++ closeB ++ openB ++ "endif".toList ++ closeB) L G =
        .ok (some [])) := by
  rw [render_nested a b t L G ha hb ht, has_mkVariables, has_mkVariables]
  constructor
  · intro h
    simp only [h.1, h.2, Bool.and_self, if_true]
  · intro h
    rcases h with h | h <;> simp [h]

/-- C5, witness: `{{if a}}{{if b}}ab{{endif}}{{endif}}` gives `ab` with
`{a: "", b: ""}` and the empty string with only `a` bound. -/
theorem C5_nested_conditionals_witness :
    render "\x7b\x7bif a\x7d\x7d\x7b\x7bif b\x7d\x7dab\x7b\x7bendif\x7d\x7d\x7b\x7bendif\x7d\x7d".toList
        [("a".toList, some []), ("b".toList, some [])] [] = .ok (some "ab".toList) ∧
    render "\x7b\x7bif a\x7d\x7d\x7b\x7bif b\x7d\x7dab\x7b\x7bendif\x7d\x7d\x7b\x7bendif\x7d\x7d".toList
        [("a".toList, some [])] [] = .ok (some []) :=
  ⟨(C5_nested_conditionals "a".toList "b".toList "ab".toList
      [("a".toList, some []), ("b".toList, some [])] [] (by decide) (by decide) (by decide)).1
      ⟨by rfl, by rfl⟩,
   (C5_nested_conditionals "a".toList "b".toList "ab".toList
      [("a".toList, some [])] [] (by decide) (by decide) (by decide)).2 (Or.inr (by rfl))⟩


/-- C6, counterexample: the text `{{a{b}}` contains no marker (the marker
search finds none), yet it is not rendered unchanged: it is classified as the
variable `a{b` and rendered as `undefined`. -/
theorem C6_counterexample :
    ¬ HasMarker "\x7b\x7ba\x7bb\x7d\x7d".toList ∧
    render "\x7b\x7ba\x7bb\x7d\x7d".toList [] [] = .ok (some "undefined".toList) ∧
    render "\x7b\x7ba\x7bb\x7d\x7d".toList [] [] ≠ .ok (some "\x7b\x7ba\x7bb\x7d\x7d".toList) := by
  refine ⟨?_, by rfl, ?_⟩
  · rw [hasMarker_iff]
    intro h
    exact h (by rfl)
  · have h : render "\x7b\x7ba\x7bb\x7d\x7d".toList [] [] = .ok (some "undefined".toList) := by
      rfl
    rw [h]
    intro e
    cases e

/-- C6 (amended): round-trip on pure literal templates.  Every string `s` that
contains no marker and does not start with `{{` is rendered unchanged, with
any variable mappings. -/
theorem C6_literal_round_trip (s : Str) (L G : Obj) (h : ¬ HasMarker s)
    (hs : openB.isPrefixOf s = false) : render s L G = .ok (some s) :=
  render_literal s L G h hs

/-- C6 (amended), witness: `render("a } b { c", {}, {}) = "a } b { c"`. -/
theorem C6_literal_round_trip_witness :
    render "a \x7d b \x7b c".toList [] [] = .ok (some "a \x7d b \x7b c".toList) :=
  C6_literal_round_trip "a \x7d b \x7b c".toList [] []
    (fun hm => (hasMarker_iff _).mp hm (by rfl)) (by rfl)

/-- C7, failing input: the marker of `{{a b}}` matches none of the three
shapes, `parameterize` leaves `undefined` in the token array, and the parser
raises a `TypeError` when `seeSource` reads a property of it. -/
theorem C7_unclassifiable_marker_throws :
    Scanner.tokenize "\x7b\x7ba b\x7d\x7d".toList = .ok [none] ∧
    Parser.buildAST [none] = .error Exn.typeError ∧
    render "\x7b\x7ba b\x7d\x7d".toList [] [] = .error Exn.typeError :=
  ⟨by rfl, by rfl, by rfl⟩

/-- C8: an unterminated `if` does not crash.  For every sequence of classified
tokens, `buildAST` returns a tree, and the tree is a block. -/
theorem C8_buildAST_returns (ts : List Token) :
    ∃ statements, Parser.buildAST (ts.map some) = .ok (Node.lines statements) := by
  obtain ⟨ss, j, h, _⟩ := parseLinesLoop_ok ts ((ts.map some).length + 1) 0 []
    (by simp) (by omega)
  exact ⟨ss, by simp only [Parser.buildAST, Parser.buildASTCursor, Parser.parseLines, h]⟩

/-- C9, failing input: in `{{n}}}` the greedy marker pattern takes the third
closing brace into the marker, and the text after the variable is lost:
the result is `v`, not `v}`. -/
theorem C9_trailing_brace_dropped :
    ValidName "n".toList ∧
    Scanner.tokenize "\x7b\x7bn\x7d\x7d\x7d".toList = .ok [some (Token.var "n".toList)] ∧
    render "\x7b\x7bn\x7d\x7d\x7d".toList [("n".toList, some "v".toList)] [] =
      .ok (some "v".toList) :=
  ⟨by decide, by rfl, by rfl⟩

/-- C10, counterexample: the condition of `{{if x }}` keeps its trailing
blank, and the condition of `{{if  }}` (two blanks) is a blank. -/
theorem C10_counterexample :
    Scanner.tokenize "\x7b\x7bif x \x7d\x7d".toList = .ok [some (Token.ifTok ['x', ' '])] ∧
    Scanner.tokenize "\x7b\x7bif  \x7d\x7d".toList = .ok [some (Token.ifTok [' '])] ∧
    isSpace ' ' = true :=
  ⟨by rfl, by rfl, by decide⟩

/-- C10 (amended): the condition of an `IfOpen` token.  For every source
string, `tokenize` returns, and every token `{if: c}` in its result is cut
from the source: the source holds `{{if`, a non-empty run of whitespace, `c`
and `}}` in a row, where `c` is non-empty, contains no `}` (so it reaches up
to the closing `}}`, trailing whitespace included), and starts with a
whitespace character only when it consists of that single character.
Conversely the marker `{{if c}}` of a non-empty, brace-free `c` that does not
start with whitespace gives the token `{if: c}`, whatever whitespace `c` ends
with. -/
theorem C10_if_condition (source : Str) :
    (∃ tokens, Scanner.tokenize source = .ok tokens ∧
      ∀ c, some (Token.ifTok c) ∈ tokens →
        (∃ a b ws, source = a ++ openB ++ "if".toList ++ ws ++ c ++ closeB ++ b ∧ ws ≠ [] ∧
          ∀ y ∈ ws, isSpace y = true) ∧
        c ≠ [] ∧ rbrace ∉ c ∧ (∀ y, c.head? = some y → isSpace y = true → c = [y])) ∧
    (∀ c : Str, c ≠ [] → NoBraces c → (∀ x, c.head? = some x → isSpace x = false) →
      Scanner.tokenize (openB ++ "if ".toList ++ c ++ closeB) = .ok [some (Token.ifTok c)]) := by
  constructor
  · obtain ⟨raw, h⟩ := tokenize_total source
    refine ⟨_, h, ?_⟩
    intro c hc
    refine ⟨tokenize_ifTok_source source _ c h hc, ?_⟩
    obtain ⟨t, _, ht⟩ := List.mem_map.mp hc
    obtain ⟨m, hm, hg⟩ := parameterize1_ifTok t c ht
    rw [← hg]
    exact exec_ifRe_sound t m hm
  · intro c hc hb hh
    have := tokenize_unparse [Token.ifTok c]
      ⟨by
        intro t ht
        rw [List.mem_singleton] at ht
        rw [ht]
        exact ⟨hc, hb, hh⟩,
       by simp⟩
    simpa [unparse, unparse1, if_toList, List.append_assoc] using this

/-- C10 (amended), witness: the marker `{{if a b }}` gives the condition
`a b ` with its trailing blank. -/
theorem C10_if_condition_witness :
    Scanner.tokenize "\x7b\x7bif a b \x7d\x7d".toList =
      .ok [some (Token.ifTok "a b ".toList)] :=
  (C10_if_condition []).2 "a b ".toList (by decide) (by decide) (by decide)

/-- C11: the parser implements the grammar `Block := Statement*`,
`Conditional := IfOpen Block IfClose` at every nesting depth.  For every tree
`T` of the grammar (a block whose statements are text leaves, variable leaves
and conditionals with a block as body, nested to any depth, empty bodies
allowed), parsing the flattening of `T` returns `T`. -/
theorem C11_parser_round_trip (T : Node) (h : isBlock T = true) :
    Parser.buildAST ((flatten T).map some) = .ok T := by
  cases T with
  | tok t => simp [isBlock] at h
  | ifNode c b => simp [isBlock] at h
  | lines ss =>
    have hss : allStatements ss = true := by simpa [isBlock] using h
    simpa [flatten] using buildAST_flatten ss hss

/-- C11, witness: the tree of `a{{if x}}{{if y}}{{endif}}{{n}}{{endif}}`. -/
theorem C11_parser_round_trip_witness :
    Parser.buildAST
      [some (Token.source ['a']), some (Token.ifTok ['x']), some (Token.ifTok ['y']),
        some Token.endif, some (Token.var ['n']), some Token.endif] =
      .ok (Node.lines [Node.tok (Token.source ['a']),
        Node.ifNode (some ['x']) (Node.lines [Node.ifNode (some ['y']) (Node.lines []),
          Node.tok (Token.var ['n'])])]) :=
  C11_parser_round_trip
    (Node.lines [Node.tok (Token.source ['a']),
      Node.ifNode (some ['x']) (Node.lines [Node.ifNode (some ['y']) (Node.lines []),
        Node.tok (Token.var ['n'])])]) (by rfl)

/-- C16: the outermost parse consumes every token up to an unmatched `endif`.
For every sequence `ts` of classified tokens `buildAST` returns a block of the
grammar and leaves the cursor `i` in one of two places.  Either `i` is past the
end: then every token was consumed, the tokens of the tree are `ts` followed
by the `k` `endif` tokens that were missing, and `i = ts.length + k`.  Or `i`
is on an `endif` token that is unmatched: the tokens before it are balanced
and are exactly the tokens of the tree.  The cursor never stops on a text,
variable or `if` token. -/
theorem C16_cursor_after_buildAST (ts : List Token) :
    ∃ ast i, Parser.buildASTCursor (ts.map some) = .ok (ast, i) ∧
      Parser.buildAST (ts.map some) = .ok ast ∧ isBlock ast = true ∧
      ((ts.length ≤ i ∧
          ∃ k, flatten ast = ts ++ List.replicate k Token.endif ∧ i = ts.length + k) ∨
        (i < ts.length ∧ ts[i]? = some Token.endif ∧ flatten ast = ts.take i ∧
          Balanced (ts.take i))) := by
  obtain ⟨ss, j, h, _⟩ := parseLinesLoop_ok ts ((ts.map some).length + 1) 0 []
    (by simp) (by omega)
  obtain ⟨new, hss, hall, _, hcase⟩ := parseLinesLoop_consumes ts _ _ _ _ _ h
  rw [List.nil_append] at hss
  subst hss
  refine ⟨Node.lines ss, j, ?_, ?_, by simpa [isBlock] using hall, ?_⟩
  · simp only [Parser.buildASTCursor, Parser.parseLines, h]
  · simp only [Parser.buildAST, Parser.buildASTCursor, Parser.parseLines, h]
  · rcases hcase with ⟨hj, hend, hd⟩ | ⟨hj, k, hk, hjk⟩
    · have htake : flattenList ss = ts.take j := by
        rw [List.drop_zero] at hd
        have h2 : flattenList ss ++ ts.drop j = ts.take j ++ ts.drop j := by
          rw [← hd, List.take_append_drop]
        exact List.append_cancel_right h2
      refine Or.inr ⟨hj, hend, by simpa [flatten] using htake, ?_⟩
      rw [← htake]
      exact balanced_flattenList ss hall
    · refine Or.inl ⟨hj, k, ?_, by omega⟩
      simpa [flatten] using hk

/-- C19: an unterminated `if` is parsed as if it were closed at the end of the
input.  For every sequence `ts` of classified tokens, parsing `ts` followed by
one `endif` token, or by any number `k` of them, gives the tree of `ts`; so
`{{if x}}body` renders like `{{if x}}body{{endif}}`, with any mappings. -/
theorem C19_unterminated_if_closed_at_end (ts : List Token) (k : Nat) :
    Parser.buildAST ((ts ++ [Token.endif]).map some) = Parser.buildAST (ts.map some) ∧
    Parser.buildAST ((ts ++ List.replicate k Token.endif).map some) =
      Parser.buildAST (ts.map some) ∧
    (∀ L G : Obj, render "\x7b\x7bif x\x7d\x7dbody".toList L G =
      render "\x7b\x7bif x\x7d\x7dbody\x7b\x7bendif\x7d\x7d".toList L G) := by
  refine ⟨buildAST_append_endif ts, ?_, fun L G => rfl⟩
  induction k with
  | zero => simp
  | succ k ih =>
    rw [List.replicate_succ', ← List.append_assoc, buildAST_append_endif, ih]

/-- C20: everything after an unmatched `endif` is dropped.  For every balanced
sequence `pre` of classified tokens and every sequence `rest` of classified
tokens, parsing `pre ++ [IfClose] ++ rest` gives the tree of `pre`; so
`a{{endif}}b` renders as `a`. -/
theorem C20_after_unmatched_endif_dropped (pre rest : List Token) (h : Balanced pre) :
    Parser.buildAST ((pre ++ [Token.endif] ++ rest).map some) =
      Parser.buildAST (pre.map some) ∧
    (∀ L G : Obj, render "a\x7b\x7bendif\x7d\x7db".toList L G = .ok (some ['a'])) := by
  have := buildAST_balanced pre rest h
  exact ⟨by simpa using this, fun L G => rfl⟩

/-- C20, witness: the tokens of `a{{endif}}b` parse like those of `a`. -/
theorem C20_after_unmatched_endif_dropped_witness :
    Parser.buildAST
      [some (Token.source ['a']), some Token.endif, some (Token.source ['b'])] =
      Parser.buildAST [some (Token.source ['a'])] :=
  (C20_after_unmatched_endif_dropped [Token.source ['a']] [Token.source ['b']] (by rfl)).1

/-- C14, counterexample: with `{x: "local"}` and `{x: "global"}` the merged
environment binds `x` to `global`, and `{{x}}` renders as `global`, not as
`local`. -/
theorem C14_counterexample :
    JsMap.get (Evaluator.mkVariables [("x".toList, some "local".toList)]
      [("x".toList, some "global".toList)]) "x".toList = some "global".toList ∧
    render "\x7b\x7bx\x7d\x7d".toList [("x".toList, some "local".toList)]
      [("x".toList, some "global".toList)] = .ok (some "global".toList) ∧
    render "\x7b\x7bx\x7d\x7d".toList [("x".toList, some "local".toList)]
      [("x".toList, some "global".toList)] ≠ .ok (some "local".toList) := by
  refine ⟨by rfl, by rfl, ?_⟩
  have h : render "\x7b\x7bx\x7d\x7d".toList [("x".toList, some "local".toList)]
      [("x".toList, some "global".toList)] = .ok (some "global".toList) := by rfl
  rw [h]
  intro e
  cases e

/-- C14 (amended): global variables take precedence on key collision.  When
the local mapping binds `n` to `a`: if the global mapping binds `n` to `b`,
the merged environment binds `n` to `b` and a template `{{n}}` (for a valid
name `n`) renders as `b`; the local value `a` is the one found and rendered
only when `n` is not a key of the global mapping. -/
theorem C14_collision_global_wins (n a : Str) (L G : Obj) (hL : Obj.read L n = some a) :
    (∀ b, Obj.read G n = some b →
      JsMap.get (Evaluator.mkVariables L G) n = some b ∧
      (ValidName n → render (openB ++ n ++ closeB) L G = .ok (some b))) ∧
    (Obj.hasKey G n = false →
      JsMap.get (Evaluator.mkVariables L G) n = some a ∧
      (ValidName n → render (openB ++ n ++ closeB) L G = .ok (some a))) := by
  have hr : ValidName n → render (openB ++ n ++ closeB) L G =
      .ok (some (toStr (JsMap.get (Evaluator.mkVariables L G) n))) := by
    intro hn
    have := render_var [] [] n L G (by decide) (by decide) hn
    simpa only [List.nil_append, List.append_nil] using this
  constructor
  · intro b hG
    have hget : JsMap.get (Evaluator.mkVariables L G) n = some b := by
      rw [get_mkVariables, hasKey_of_read G n b hG]
      simp [hG]
    exact ⟨hget, fun hn => by rw [hr hn, hget]; rfl⟩
  · intro hG
    have hget : JsMap.get (Evaluator.mkVariables L G) n = some a := by
      rw [get_mkVariables, hG]
      simp [hL]
    exact ⟨hget, fun hn => by rw [hr hn, hget]; rfl⟩

/-- C14 (amended), witness: `{{x}}` with `{x: "local"}` renders as `global`
under `{x: "global"}` and as `local` under `{}`. -/
theorem C14_collision_global_wins_witness :
    render "\x7b\x7bx\x7d\x7d".toList [("x".toList, some "local".toList)]
      [("x".toList, some "global".toList)] = .ok (some "global".toList) ∧
    render "\x7b\x7bx\x7d\x7d".toList [("x".toList, some "local".toList)] [] =
      .ok (some "local".toList) :=
  ⟨((C14_collision_global_wins "x".toList "local".toList
      [("x".toList, some "local".toList)] [("x".toList, some "global".toList)] (by rfl)).1
      "global".toList (by rfl)).2 (by decide),
   ((C14_collision_global_wins "x".toList "local".toList
      [("x".toList, some "local".toList)] [] (by rfl)).2 (by rfl)).2 (by decide)⟩

/-- C17: block evaluation is in-order concatenation.  For every environment
and all statement lists `xs`, `ys`: the empty block evaluates to the empty
string, the blocks of `xs` and of `ys` evaluate to strings `a` and `b` and the
block of `xs ++ ys` to `a ++ b`; hence a block evaluates to the left-to-right
concatenation of its statements' results, each coerced to a string. -/
theorem C17_block_concatenation (vars : JsMap) (xs ys : List Node) :
    Evaluator.evaluate vars (Node.lines []) = some [] ∧
    (∃ a b, Evaluator.evaluate vars (Node.lines xs) = some a ∧
      Evaluator.evaluate vars (Node.lines ys) = some b ∧
      Evaluator.evaluate vars (Node.lines (xs ++ ys)) = some (a ++ b)) ∧
    Evaluator.evaluate vars (Node.lines xs) =
      some (List.flatten (xs.map (fun n => toStr (Evaluator.evaluate vars n)))) := by
  refine ⟨by rw [evaluate_lines]; rfl, ?_, ?_⟩
  · refine ⟨_, _, evaluate_lines vars xs, evaluate_lines vars ys, ?_⟩
    rw [evaluate_lines, evaluateStatements_append, evaluateStatements_acc]
  · rw [evaluate_lines, evaluateStatements_join]

/-- C18: the error branch of the evaluator is unreachable on trees the
pipeline builds.  For every source whose tokens are all classified (no absent
token in the result of `tokenize`) and all variable mappings, `buildAST`
returns a tree, and evaluating it never reaches the final `Evaluator Error`
branch, on the root or on any node that is evaluated. -/
theorem C18_error_branch_unreachable (source : Str) (tokens : List (Option Token))
    (L G : Obj) (h : Scanner.tokenize source = .ok tokens) (hc : none ∉ tokens) :
    ∃ ast, Parser.buildAST tokens = .ok ast ∧
      evaluateTraced (Evaluator.mkVariables L G) ast =
        (Evaluator.evaluate (Evaluator.mkVariables L G) ast, false) := by
  obtain ⟨ts, hts⟩ := exists_map_some tokens hc
  subst hts
  have hclean : ∀ t ∈ ts, cleanToken t = true :=
    fun t ht => tokenize_clean source _ h t (List.mem_map_of_mem some ht)
  obtain ⟨ss, j, hok, _⟩ := parseLinesLoop_ok ts ((ts.map some).length + 1) 0 []
    (by simp) (by omega)
  have hss := parseLinesLoop_clean (Evaluator.mkVariables L G) ts hclean _ _ _ _ _ hok (by simp)
  refine ⟨Node.lines ss, ?_, ?_⟩
  · simp only [Parser.buildAST, Parser.buildASTCursor, Parser.parseLines, hok]
  · have h1 := evaluateTraced_fst (Evaluator.mkVariables L G) (Node.lines ss)
    have h2 : (evaluateTraced (Evaluator.mkVariables L G) (Node.lines ss)).2 = false := by
      simp only [evaluateTraced, evaluateStatementsTraced_snd, hss]
      rfl
    rw [← h1, ← h2]

/-- C18, witness: the tree of `Hi {{name}}{{if a}}x{{endif}}`. -/
theorem C18_error_branch_unreachable_witness :
    ∃ ast, Parser.buildAST [some (Token.source "Hi ".toList), some (Token.var "name".toList),
        some (Token.ifTok ['a']), some (Token.source ['x']), some Token.endif] = .ok ast ∧
      evaluateTraced (Evaluator.mkVariables [] []) ast =
        (Evaluator.evaluate (Evaluator.mkVariables [] []) ast, false) :=
  C18_error_branch_unreachable
    "Hi \x7b\x7bname\x7d\x7d\x7b\x7bif a\x7d\x7dx\x7b\x7bendif\x7d\x7d".toList
    [some (Token.source "Hi ".toList), some (Token.var "name".toList),
      some (Token.ifTok ['a']), some (Token.source ['x']), some Token.endif] [] []
    (by rfl) (by decide)

/-- C12: the tokenizer recognises exactly the wire format.  For every token
list `ts` in normal form (texts non-empty and brace-free, no two texts
adjacent, variable names valid, conditions non-empty, brace-free and not
starting with whitespace), tokenizing the template text of `ts` returns `ts`,
in source order. -/
theorem C12_tokenize_unparse (ts : List Token) (h : Normal ts) :
    Scanner.tokenize (unparse ts) = .ok (ts.map some) :=
  tokenize_unparse ts h

/-- C12, witness: `Hi {{name}}{{if a b }}x{{endif}}`. -/
theorem C12_tokenize_unparse_witness :
    Scanner.tokenize
      "Hi \x7b\x7bname\x7d\x7d\x7b\x7bif a b \x7d\x7dx\x7b\x7bendif\x7d\x7d".toList =
      .ok [some (Token.source "Hi ".toList), some (Token.var "name".toList),
        some (Token.ifTok "a b ".toList), some (Token.source ['x']), some Token.endif] :=
  C12_tokenize_unparse
    [Token.source "Hi ".toList, Token.var "name".toList, Token.ifTok "a b ".toList,
      Token.source ['x'], Token.endif]
    ⟨by
      intro t ht
      simp only [List.mem_cons, List.mem_singleton, List.not_mem_nil, or_false] at ht
      rcases ht with rfl | rfl | rfl | rfl | rfl
      · exact ⟨by decide, by decide⟩
      · exact (by decide : ValidName "name".toList)
      · exact ⟨by decide, by decide, by decide⟩
      · exact ⟨by decide, by decide⟩
      · trivial,
     by simp [isText]⟩

/-- C13: tokenization of literal-only input.  For every string `s` that
contains neither `{{` nor `}}` as a substring, `tokenize(s)` is the one token
`{source: s}` when `s` is non-empty and no token when `s` is empty. -/
theorem C13_tokenize_literal (s : Str) (h1 : ¬ openB <:+: s) (_h2 : ¬ closeB <:+: s) :
    (s ≠ [] → Scanner.tokenize s = .ok [some (Token.source s)]) ∧
    (s = [] → Scanner.tokenize s = .ok []) := by
  rw [tokenize_literal s h1]
  constructor
  · intro h
    rw [if_neg h]
  · intro h
    rw [if_pos h]

/-- C13, witness: `a { b } c` is one text token, the empty string gives none. -/
theorem C13_tokenize_literal_witness :
    Scanner.tokenize "a \x7b b \x7d c".toList = .ok [some (Token.source "a \x7b b \x7d c".toList)] ∧
    Scanner.tokenize [] = .ok [] :=
  ⟨(C13_tokenize_literal "a \x7b b \x7d c".toList (by decide) (by decide)).1 (by decide),
   (C13_tokenize_literal [] (by decide) (by decide)).2 rfl⟩

/-- C15: empty text tokens are never emitted.  For every source string,
`tokenize` returns, and every text token in its result has a non-empty
content; in particular two adjacent markers `{{a}}{{b}}` (valid names) give
the two variable tokens and no text token between them. -/
theorem C15_no_empty_text_token (source : Str) :
    (∃ tokens, Scanner.tokenize source = .ok tokens ∧
      ∀ s, some (Token.source s) ∈ tokens → s ≠ []) ∧
    (∀ a b : Str, ValidName a → ValidName b →
      Scanner.tokenize (openB ++ a ++ closeB ++ openB ++ b ++ closeB) =
        .ok [some (Token.var a), some (Token.var b)]) := by
  constructor
  · obtain ⟨raw, hraw⟩ := tokenize_total source
    refine ⟨_, hraw, ?_⟩
    intro s hs
    have := tokenize_clean source _ hraw (Token.source s) hs
    intro e
    simp [cleanToken, e] at this
  · intro a b ha hb
    have := tokenize_unparse [Token.var a, Token.var b]
      ⟨by
        intro t ht
        simp only [List.mem_cons, List.mem_singleton, List.not_mem_nil, or_false] at ht
        rcases ht with rfl | rfl
        · exact ha
        · exact hb,
       by simp [isText]⟩
    simpa [unparse, unparse1, List.append_assoc] using this

/-- C15, witness: `{{a}}{{b}}` gives two variable tokens. -/
theorem C15_no_empty_text_token_witness :
    Scanner.tokenize "\x7b\x7ba\x7d\x7d\x7b\x7bb\x7d\x7d".toList =
      .ok [some (Token.var ['a']), some (Token.var ['b'])] :=
  (C15_no_empty_text_token []).2 ['a'] ['b'] (by decide) (by decide)


end MiniBuilder
